import Mathlib

/-!
Verification of the calculator-automation core of this repository
(`mcp_calculator_server.py` and its callers).

The Python code is shallowly embedded: strings become `List Char`,
`re.findall(r'\d+', s)` becomes extraction of maximal digit runs,
`re.sub(rf'\b{w}\b', d, s)` becomes replacement of maximal word runs,
`re.split(r'\band\b', s)` becomes a left-to-right scan for word-bounded
occurrences of `and`, and the stateful controller methods become explicit
state passing over an abstract GUI backend together with an effect trace.
Character classes (`\d`, `\w`, `str.lower`, `str.strip`) are modelled on
the ASCII fragment, which covers every string the program itself builds.

The server source file is stored with a double UTF-8 encoding: the operator
glyphs appear there as the byte sequences for `Ã—`, `Ã·`, `âˆš`, `xÂ²`.
Those spellings are internally consistent throughout the file, so the
embedding uniformly writes them as the intended single code points
`×`, `÷`, `√`, `x²`.
-/

namespace Calc

/-! ## Characters -/

/-- Digit characters recognised by the embedding of Python's `\d`. -/
def digitChars : List Char := ['0', '1', '2', '3', '4', '5', '6', '7', '8', '9']

/-- Test for a (ASCII) decimal digit. -/
def isDigitC (c : Char) : Bool := digitChars.contains c

/-- Whitespace characters stripped by Python's `str.strip`. -/
def isSpaceC (c : Char) : Bool :=
  c == ' ' || c == '\t' || c == '\n' || c == '\r'

/-- ASCII lower-case conversion, the fragment of `str.lower` the program relies on. -/
def lowerC (c : Char) : Char :=
  if 'A' ≤ c && c ≤ 'Z' then Char.ofNat (c.toNat + 32) else c

/-- Word characters for the embedding of the regex `\b` boundary (`[A-Za-z0-9_]`). -/
def isWordChar (c : Char) : Bool :=
  ('a' ≤ c && c ≤ 'z') || ('A' ≤ c && c ≤ 'Z') || isDigitC c || c == '_'

/-- One-character string. -/
def sing (c : Char) : String := String.mk [c]

/-! ## List-of-character utilities -/

/-- Decides whether `n` is a prefix of `h` (character lists). -/
def hasPrefixL : List Char → List Char → Bool
  | [], _ => true
  | _ :: _, [] => false
  | a :: as, b :: bs => a == b && hasPrefixL as bs

/-- Embedding of Python's substring test `n in h`. -/
def containsSub (n : List Char) : List Char → Bool
  | [] => hasPrefixL n []
  | c :: t => hasPrefixL n (c :: t) || containsSub n t

/-- Lower-case a whole character list (`str.lower`). -/
def lowerL (l : List Char) : List Char := l.map lowerC

/-- Strip whitespace from both ends (`str.strip`). -/
def stripL (l : List Char) : List Char :=
  ((l.dropWhile isSpaceC).reverse.dropWhile isSpaceC).reverse

/-- Worker for `runsBy`: `cur` is the reversed run currently being read. -/
def runsByGo (p : Char → Bool) : List Char → List Char → List (List Char)
  | cur, [] => if cur.isEmpty then [] else [cur.reverse]
  | cur, c :: t =>
    if p c then runsByGo p (c :: cur) t
    else if cur.isEmpty then runsByGo p [] t
    else cur.reverse :: runsByGo p [] t

/-- Maximal runs of characters satisfying `p`; `runsBy isDigitC` embeds
`re.findall(r'\d+', ·)`. -/
def runsBy (p : Char → Bool) (s : List Char) : List (List Char) := runsByGo p [] s

/-- Maximal digit runs, the embedding of `re.findall(r'\d+', s)`. -/
def digitRuns (s : List Char) : List (List Char) := runsBy isDigitC s

/-- Maximal word runs, the sites where the word-bounded `re.sub` may fire. -/
def wordRuns (s : List Char) : List (List Char) := runsBy isWordChar s

/-- Emit a finished (reversed) word run, replacing it by `d` when it equals `w`. -/
def flushW (w : List Char) (d : Char) (cur : List Char) : List Char :=
  if cur.isEmpty then [] else if cur.reverse == w then [d] else cur.reverse

/-- Worker for `replW`: `cur` is the reversed word run currently being read. -/
def replWGo (w : List Char) (d : Char) : List Char → List Char → List Char
  | cur, [] => flushW w d cur
  | cur, c :: t =>
    if isWordChar c then replWGo w d (c :: cur) t
    else flushW w d cur ++ c :: replWGo w d [] t

/-- Replace every maximal word run equal to `w` by the single character `d`:
the embedding of `re.sub(rf'\b{w}\b', d, s)` for a word `w`. -/
def replW (w : List Char) (d : Char) (s : List Char) : List Char := replWGo w d [] s

/-- True when the list is empty or starts with a non-word character:
the `\b` condition to the right of a match. -/
def headNonWord : List Char → Bool
  | [] => true
  | c :: _ => !isWordChar c

/-- Scan for word-bounded occurrences of `and`; the Boolean records whether the
previous character was a word character (false at the start of the string).
Embedding of `re.split(r'\band\b', s)`. -/
def splitAndGo : Bool → List Char → List (List Char)
  | _, [] => [[]]
  | false, 'a' :: 'n' :: 'd' :: rest =>
    if headNonWord rest then [] :: splitAndGo true rest
    else
      match splitAndGo true rest with
      | [] => [['a', 'n', 'd']]
      | p :: ps => ('a' :: 'n' :: 'd' :: p) :: ps
  | _, c :: t =>
    match splitAndGo (isWordChar c) t with
    | [] => [[c]]
    | p :: ps => (c :: p) :: ps

/-- Embedding of `re.split(r'\band\b', instruction)`. -/
def splitAnd (s : List Char) : List (List Char) := splitAndGo false s

/-- Split on every occurrence of the literal substring `then`
(embedding of `instruction.split("then")`). -/
def splitThen : List Char → List (List Char)
  | [] => [[]]
  | 't' :: 'h' :: 'e' :: 'n' :: rest => [] :: splitThen rest
  | c :: t =>
    match splitThen t with
    | [] => [[c]]
    | p :: ps => (c :: p) :: ps

/-- Embedding of `" then ".join(parts)`. -/
def joinThen : List (List Char) → List Char
  | [] => []
  | [p] => p
  | p :: ps => p ++ (' ' :: 't' :: 'h' :: 'e' :: 'n' :: ' ' :: joinThen ps)

/-! ## The instruction parser (`CalculatorInstructionParser`) -/

/-- The parser's `number_map`, in source order. -/
def numberMapL : List (List Char × Char) :=
  [("zero".toList, '0'), ("one".toList, '1'), ("two".toList, '2'),
   ("three".toList, '3'), ("four".toList, '4'), ("five".toList, '5'),
   ("six".toList, '6'), ("seven".toList, '7'), ("eight".toList, '8'),
   ("nine".toList, '9')]

/-- Apply the whole-word number-name replacements of `parse`, in `number_map`
order. -/
def applyNumberWords (s : List Char) : List Char :=
  numberMapL.foldl (fun acc wd => replW wd.1 wd.2 acc) s

/-- Operator determination of `_parse_single_operation` (lines 386-396):
a fixed-priority first-match substring scan. -/
def detOp (s : List Char) : Option String :=
  if containsSub "add".toList s || containsSub "plus".toList s then some "+"
  else if containsSub "subtract".toList s || containsSub "minus".toList s then some "-"
  else if containsSub "multiply".toList s || containsSub "times".toList s
      || containsSub "by".toList s then some "×"
  else if containsSub "divide".toList s then some "÷"
  else none

/-- The four binary operator glyph tokens. -/
def binGlyphs : List String := ["+", "-", "×", "÷"]

/-- The two unary tokens. -/
def unaryTokens : List String := ["square", "√"]

/-- Digit tokens. -/
def digitTokens : List String :=
  ["0", "1", "2", "3", "4", "5", "6", "7", "8", "9"]

/-- The full token alphabet the parser may emit. -/
def tokenAlphabet : List String :=
  digitTokens ++ binGlyphs ++ ["="] ++ unaryTokens

/-- Emit the digits of `nums` one token per character with `op` between
consecutive numbers (the `for i, num_str in enumerate(numbers)` loop of
lines 423-428). -/
def emitNums (op : String) : List (List Char) → List String
  | [] => []
  | [n] => n.map sing
  | n :: rest => n.map sing ++ op :: emitNums op rest

/-- Branches of `_parse_single_operation` for fewer than two numbers
(lines 430-443). -/
def psopNum (s : List Char) (numbers : List (List Char)) : List String :=
  if numbers.length == 1 then
    (numbers.headD []).map sing ++
      (if containsSub "square".toList s && !containsSub "root".toList s then ["square"]
       else if containsSub "square root".toList s || containsSub "sqrt".toList s then ["√"]
       else [])
  else if numbers.isEmpty && containsSub "square".toList s then ["square"]
  else if numbers.isEmpty &&
      (containsSub "square root".toList s || containsSub "sqrt".toList s) then ["√"]
  else []

/-- Continuation of `_parse_single_operation` after the `and`-branch
(lines 421-445). -/
def psopTail (s : List Char) (numbers : List (List Char)) (operation : Option String) :
    List String :=
  match operation with
  | some op =>
    if numbers.length ≥ 2 then emitNums op numbers ++ ["="]
    else psopNum s numbers
  | none => psopNum s numbers

/-- Embedding of `_parse_single_operation` (lines 379-445). -/
def psop (s : List Char) : List String :=
  let numbers := digitRuns s
  let operation := detOp s
  match operation with
  | some op =>
    if containsSub "and".toList s then
      let parts := splitAnd s
      if parts.length ≥ 2 then
        let ln := digitRuns (parts.getD 0 [])
        let rn := digitRuns (parts.getD 1 [])
        if !ln.isEmpty && !rn.isEmpty then
          (ln.headD []).map sing ++ op :: (rn.headD []).map sing ++ ["="]
        else psopTail s numbers operation
      else psopTail s numbers operation
    else psopTail s numbers operation
  | none => psopTail s numbers operation

/-- Decide whether the produced button list contains a binary operator glyph
(`any(op in buttons for op in ["+", "-", "×", "÷"])`). -/
def hasBinGlyph (l : List String) : Bool := binGlyphs.any fun g => l.contains g

/-- Force a clause's buttons to end in `=` when they contain a binary operator
(lines 350-353 and 372-375). -/
def forceEq (l : List String) : List String :=
  if !l.isEmpty && l.getLastD "" != "=" && hasBinGlyph l then l ++ ["="] else l

/-- Second-clause handling of `parse` (lines 357-368). -/
def secondClause (sp : List Char) : List String :=
  if containsSub "square".toList sp && !containsSub "root".toList sp then ["square"]
  else if containsSub "square root".toList sp || containsSub "sqrt".toList sp
      || containsSub "√".toList sp then ["√"]
  else if containsSub "find".toList sp && containsSub "square".toList sp then ["square"]
  else psop sp

/-- Embedding of `CalculatorInstructionParser.parse` (lines 330-377) on
character lists. -/
def parseL (s0 : List Char) : List String :=
  let s1 := stripL (lowerL s0)
  let s := applyNumberWords s1
  if containsSub "then".toList s then
    let parts := splitThen s
    let firstPart := stripL (parts.getD 0 [])
    let secondPart := stripL (joinThen (parts.drop 1))
    forceEq (psop firstPart) ++ secondClause secondPart
  else
    forceEq (psop s)

/-- Embedding of `CalculatorInstructionParser.parse` on strings. -/
def parseInstr (s : String) : List String := parseL s.toList

/-! ## The element resolver (`CalculatorController._find_node_by_name`)

A node record keeps the fields the resolver and the click path read from
`fdom.json`: `g_icon_name`, `g_brief` and `bbox`.  The nodes of the `root`
state are an association list in insertion order, matching Python dict
iteration. -/

structure NodeR where
  g_icon_name : List Char
  g_brief : List Char
  bbox : List Int
  deriving DecidableEq

/-- Association list of node id to node record: the `nodes` mapping of the
`root` state of `fdom.json`. -/
abbrev Fdom := List (String × NodeR)

/-- The `button_mappings` dictionary (lines 63-73), keys in source order. -/
def buttonMappings : List (List Char × List (List Char)) :=
  [("+".toList, ["+ button".toList, "addition".toList]),
   ("=".toList, ["= button".toList, "equals".toList]),
   ("-".toList, ["- button".toList, "minus".toList, "subtract".toList]),
   ("×".toList, ["× button".toList, "multiplication".toList]),
   ("*".toList, ["× button".toList, "multiplication".toList]),
   ("÷".toList, ["÷ button".toList, "division".toList]),
   ("/".toList, ["÷ button".toList, "division".toList]),
   ("square".toList, ["x² button".toList, "square".toList]),
   ("√".toList, ["√x button".toList, "square root".toList])]

/-- First-pass loop for the `'+'` token (lines 79-87): exact `"+ button"`
icon, or an `addition` brief whose icon contains `+` but neither starts with
`m` nor contains the sign-toggle fragment. -/
def plusPass : Fdom → Option String
  | [] => none
  | (nid, nd) :: rest =>
    let icon := lowerL nd.g_icon_name
    let brief := lowerL nd.g_brief
    if icon == "+ button".toList ||
        (containsSub "addition".toList brief && containsSub "+".toList icon &&
         !hasPrefixL "m".toList icon && !containsSub "+/-".toList icon) then
      some nid
    else plusPass rest

/-- First-pass loop for the other mapped tokens (lines 88-96): first node one
of whose patterns occurs in the icon name or the brief. -/
def patternPass (patterns : List (List Char)) : Fdom → Option String
  | [] => none
  | (nid, nd) :: rest =>
    let icon := lowerL nd.g_icon_name
    let brief := lowerL nd.g_brief
    if patterns.any (fun pat => containsSub pat icon || containsSub pat brief) then
      some nid
    else patternPass patterns rest

/-- Second pass (lines 98-104): digit tokens match `"<digit> button"` as a
substring of the icon name. -/
def digitPass (nl : List Char) : Fdom → Option String
  | [] => none
  | (nid, nd) :: rest =>
    let icon := lowerL nd.g_icon_name
    if containsSub (nl ++ " button".toList) icon then some nid
    else digitPass nl rest

/-- Third pass (lines 106-123): generic substring fallback with per-token
validation; only `+`, `=` and `square` can be returned by this pass. -/
def thirdPass (no nl : List Char) : Fdom → Option String
  | [] => none
  | (nid, nd) :: rest =>
    let icon := lowerL nd.g_icon_name
    let brief := lowerL nd.g_brief
    if containsSub no icon || containsSub nl icon || containsSub nl brief then
      if nl == "+".toList &&
          (containsSub "+".toList icon || containsSub "addition".toList brief) then
        some nid
      else if nl == "=".toList &&
          (containsSub "=".toList icon || containsSub "equals".toList brief) then
        some nid
      else if nl == "square".toList &&
          (containsSub "square".toList icon || containsSub "x²".toList icon) then
        some nid
      else thirdPass no nl rest
    else thirdPass no nl rest

/-- Embedding of Python's `str.isdigit` on the ASCII fragment. -/
def isdigitL (l : List Char) : Bool := !l.isEmpty && l.all isDigitC

/-- Embedding of `CalculatorController._find_node_by_name` (lines 53-129)
over the `root`-state nodes. -/
def findNodeByName (name : List Char) (nodes : Fdom) : Option String :=
  let nl := stripL (lowerL name)
  let no := stripL name
  let pass1 :=
    match buttonMappings.find? (fun kv => kv.1 == nl) with
    | none => none
    | some kv => if nl == "+".toList then plusPass nodes else patternPass kv.2 nodes
  match pass1 with
  | some nid => some nid
  | none =>
    match (if isdigitL nl then digitPass nl nodes else none) with
    | some nid => some nid
    | none => thirdPass no nl nodes

/-! ## The window tracker and click executor

The GUI automation backend (`SimpleWindowAPI`), an external collaborator, is
abstracted as a record of functions over an opaque backend state `S`;
controller methods thread a `St` value carrying the controller fields
(`window_id`, `window_pos`), the backend state and a trace of the effects
issued so far. -/

/-- Window data the controller reads: title and on-screen origin. -/
structure WinInfo where
  title : List Char
  x : Int
  y : Int

/-- Abstract GUI automation backend over backend state `S`. -/
structure Gui (S : Type) where
  refresh : S → S
  getWindows : S → List (Nat × List Char)
  getWindowInfo : S → Option Nat → Option WinInfo
  focusW : S → Option Nat → S
  clickAt : S → Int → Int → Bool × S
  launchApp : S → Option Nat × S

/-- Effects issued to the outside world, in order. -/
inductive Eff where
  | refreshE : Eff
  | locateE : Eff
  | focusE : Option Nat → Eff
  | clickE : Int → Int → Eff
  | launchE : Eff
  deriving DecidableEq

/-- Controller fields of `CalculatorController` used by the click path. -/
structure Ctrl where
  window_id : Option Nat
  window_pos : Option (Int × Int)
  deriving DecidableEq

/-- Controller state, backend state and effect trace. -/
structure St (S : Type) where
  c : Ctrl
  s : S
  tr : List Eff

/-- Issue a `refresh` to the backend. -/
def doRefresh {S} (g : Gui S) (st : St S) : St S :=
  { st with s := g.refresh st.s, tr := st.tr ++ [Eff.refreshE] }

/-- Focus a window (possibly `None`). -/
def doFocus {S} (g : Gui S) (st : St S) (w : Option Nat) : St S :=
  { st with s := g.focusW st.s w, tr := st.tr ++ [Eff.focusE w] }

/-- Issue a click at absolute coordinates. -/
def doClick {S} (g : Gui S) (st : St S) (x y : Int) : Bool × St S :=
  let (ok, s') := g.clickAt st.s x y
  (ok, { st with s := s', tr := st.tr ++ [Eff.clickE x y] })

/-- Launch the application. -/
def doLaunch {S} (g : Gui S) (st : St S) : Option Nat × St S :=
  let (r, s') := g.launchApp st.s
  (r, { st with s := s', tr := st.tr ++ [Eff.launchE] })

/-- The excluded-title substrings of `_find_calculator_window` (line 142). -/
def excludedTitles : List (List Char) :=
  ["cursor".toList, "code".toList, "visual studio".toList,
   "pycharm".toList, "intellij".toList]

/-- Pure selection loop of `_find_calculator_window` (lines 139-153): skip
excluded titles, then for each pattern in `["calculator", "calc"]` require the
lower-cased title to equal `calculator` or start with it. -/
def selectCalcWindow : List (Nat × List Char) → Option Nat
  | [] => none
  | (wid, title) :: rest =>
    let t := lowerL title
    if excludedTitles.any (fun ex => containsSub ex t) then selectCalcWindow rest
    else if containsSub "calculator".toList t &&
        (t == "calculator".toList || hasPrefixL "calculator".toList t) then some wid
    else if containsSub "calc".toList t &&
        (t == "calculator".toList || hasPrefixL "calculator".toList t) then some wid
    else selectCalcWindow rest

/-- Embedding of `CalculatorController._find_calculator_window`
(lines 131-153): refresh, then select among the enumerated windows. -/
def doLocate {S} (g : Gui S) (st : St S) : Option Nat × St S :=
  let st1 := doRefresh g { st with tr := st.tr ++ [Eff.locateE] }
  (selectCalcWindow (g.getWindows st1.s), st1)

/-- Set the controller's `window_pos` field from queried window data. -/
def setPos {S} (st : St S) (wi : WinInfo) : St S :=
  { st with c := { st.c with window_pos := some (wi.x, wi.y) } }

/-- Set the controller's `window_id` field. -/
def setWid {S} (st : St S) (w : Option Nat) : St S :=
  { st with c := { st.c with window_id := w } }

/-- Embedding of `CalculatorController._update_window_position`
(lines 211-234): refresh, query the origin, on failure re-locate, and on a
successful re-location focus and recurse.  The Python method recurses as long
as the position query fails while re-location succeeds; the `Nat` argument is
recursion fuel, and the Boolean result is `false` when the fuel ran out (the
unbounded-recursion case). -/
def updateWindowPosition {S} (g : Gui S) : Nat → St S → Bool × St S
  | fuel, st =>
    match st.c.window_id with
    | none => (true, st)
    | some wid =>
      match g.getWindowInfo (doRefresh g st).s (some wid) with
      | some wi => (true, setPos (doRefresh g st) wi)
      | none =>
        match (doLocate g (doRefresh g st)).1 with
        | none => (true, setWid (doLocate g (doRefresh g st)).2 none)
        | some wid2 =>
          match fuel with
          | 0 => (false, doFocus g (setWid (doLocate g (doRefresh g st)).2 (some wid2))
              (some wid2))
          | Nat.succ n => updateWindowPosition g n
              (doFocus g (setWid (doLocate g (doRefresh g st)).2 (some wid2)) (some wid2))

/-- Launch-side continuation of `open_calculator` (lines 184-204): `st2` is
the state after a successful launch with `window_id` set to the launched
window.  Python re-finds the window, keeps the launched id when the re-find
fails, focuses and refreshes the position. -/
def openCalcLaunched {S} (g : Gui S) (fuel : Nat) (st2 : St S) : Option (Bool × St S) :=
  match (doLocate g st2).1 with
  | some w2 =>
    match updateWindowPosition g fuel
        (doFocus g (setWid (doLocate g st2).2 (some w2)) (some w2)) with
    | (false, _) => none
    | (true, st7) => some (true, st7)
  | none =>
    match updateWindowPosition g fuel
        (doFocus g (doLocate g st2).2 (doLocate g st2).2.c.window_id) with
    | (false, _) => none
    | (true, st7) => some (true, st7)

/-- Embedding of `CalculatorController.open_calculator` (lines 155-209).
`none` means a nested `_update_window_position` ran out of fuel. -/
def openCalculator {S} (g : Gui S) (fuel : Nat) (st : St S) : Option (Bool × St S) :=
  match (doLocate g st).1 with
  | some wid =>
    match updateWindowPosition g fuel
        (doFocus g (setWid (doLocate g st).2 (some wid)) (some wid)) with
    | (false, _) => none
    | (true, st4) => some (true, st4)
  | none =>
    match (doLaunch g (doLocate g st).2).1 with
    | some lwid => openCalcLaunched g fuel (setWid (doLaunch g (doLocate g st).2).2 (some lwid))
    | none => some (false, (doLaunch g (doLocate g st).2).2)

/-- Failure classification of the dictionaries returned by `click_button`. -/
inductive ErrKind where
  | openFail : ErrKind
  | btnNotFound : ErrKind
  | nodeDataMissing : ErrKind
  | noWindowPos : ErrKind
  | invalidBbox : ErrKind
  | clickFailE : ErrKind
  | excE : ErrKind
  deriving DecidableEq

/-- Result of `click_button`: success with the clicked node id, or failure. -/
inductive CBRes where
  | succ : String → CBRes
  | fail : ErrKind → CBRes
  deriving DecidableEq

/-- Python dict `get` on the node association list. -/
def lookupNode (nid : String) (nodes : Fdom) : Option NodeR :=
  (nodes.find? (fun kv => kv.1 == nid)).map (fun kv => kv.2)

/-- Final click step of `click_button` (lines 297-306). -/
def performClick {S} (g : Gui S) (nid : String) (ax ay : Int) (st : St S) :
    Option (CBRes × St S) :=
  match doClick g st ax ay with
  | (ok, st') =>
    if ok then some (CBRes.succ nid, st') else some (CBRes.fail ErrKind.clickFailE, st')

/-- Window-switch branch of the pre-click re-validation (lines 288-295):
focus the re-found window, refresh the position, recompute the absolute
coordinates (a missing position here raises in Python and surfaces as the
caught-exception failure). -/
def retargetClick {S} (g : Gui S) (fuel : Nat) (nid : String) (cx cy : Int) (st5 : St S) :
    Option (CBRes × St S) :=
  match updateWindowPosition g fuel st5 with
  | (false, _) => none
  | (true, st7) =>
    match st7.c.window_pos with
    | none => some (CBRes.fail ErrKind.excE, st7)
    | some (px, py) => performClick g nid (px + cx) (py + cy) st7

/-- Pre-click window re-validation (lines 279-306): `st3` is the state after
the focus call of line 276.  Check the title of the tracked window; on a
suspicious title re-locate and possibly switch windows before clicking. -/
def revalidateAndClick {S} (g : Gui S) (fuel : Nat) (nid : String) (cx cy ax ay : Int)
    (st3 : St S) : Option (CBRes × St S) :=
  match g.getWindowInfo st3.s st3.c.window_id with
  | some wi =>
    if !containsSub "calculator".toList (lowerL wi.title)
        || containsSub "cursor".toList (lowerL wi.title) then
      match (doLocate g st3).1 with
      | some cwid =>
        if some cwid != (doLocate g st3).2.c.window_id then
          retargetClick g fuel nid cx cy
            (doFocus g (setWid (doLocate g st3).2 (some cwid)) (some cwid))
        else performClick g nid ax ay (doLocate g st3).2
      | none => performClick g nid ax ay (doLocate g st3).2
    else performClick g nid ax ay st3
  | none => performClick g nid ax ay st3

/-- Integer midpoint of two bounding-box entries (`(x1 + x2) // 2`,
Python floor division). -/
def bboxCenter (bbox : List Int) (i j : Nat) : Int :=
  (bbox.getD i 0 + bbox.getD j 0).fdiv 2

/-- Steps of `click_button` after the window is known to be open
(lines 244-306). -/
def clickCore {S} (g : Gui S) (nodes : Fdom) (fuel : Nat) (btn : String) (st : St S) :
    Option (CBRes × St S) :=
  match findNodeByName btn.toList nodes with
  | none => some (CBRes.fail ErrKind.btnNotFound, st)
  | some nid =>
    match lookupNode nid nodes with
    | none => some (CBRes.fail ErrKind.nodeDataMissing, st)
    | some nd =>
      match updateWindowPosition g fuel st with
      | (false, _) => none
      | (true, st2) =>
        match st2.c.window_pos with
        | none => some (CBRes.fail ErrKind.noWindowPos, st2)
        | some (px, py) =>
          if nd.bbox.length != 4 then some (CBRes.fail ErrKind.invalidBbox, st2)
          else
            revalidateAndClick g fuel nid (bboxCenter nd.bbox 0 2) (bboxCenter nd.bbox 1 3)
              (px + bboxCenter nd.bbox 0 2) (py + bboxCenter nd.bbox 1 3)
              (doFocus g st2 st2.c.window_id)

/-- Embedding of `CalculatorController.click_button` (lines 236-309). -/
def clickButton {S} (g : Gui S) (nodes : Fdom) (fuel : Nat) (btn : String) (st : St S) :
    Option (CBRes × St S) :=
  match st.c.window_id with
  | some _ => clickCore g nodes fuel btn st
  | none =>
    match openCalculator g fuel st with
    | none => none
    | some (false, st1) => some (CBRes.fail ErrKind.openFail, st1)
    | some (true, st1) => clickCore g nodes fuel btn st1

/-- The per-token loop of `execute_calculation` (lines 537-541): every token
is attempted and its outcome appended. -/
def execButtons {S} (g : Gui S) (nodes : Fdom) (fuel : Nat) :
    List String → St S → Option (List (String × CBRes) × St S)
  | [], st => some ([], st)
  | b :: bs, st =>
    match clickButton g nodes fuel b st with
    | none => none
    | some (r, st1) =>
      match execButtons g nodes fuel bs st1 with
      | none => none
      | some (rs, st2) => some ((b, r) :: rs, st2)


/-! ## Substring and prefix lemmas -/

theorem hasPrefixL_mem : ∀ (n s : List Char), hasPrefixL n s = true → ∀ c, c ∈ n → c ∈ s := by
  intro n
  induction n with
  | nil => intro s _ c hc; exact absurd hc (List.not_mem_nil c)
  | cons a as ih =>
    intro s h c hc
    cases s with
    | nil => simp [hasPrefixL] at h
    | cons b bs =>
      simp only [hasPrefixL, Bool.and_eq_true, beq_iff_eq] at h
      rcases List.mem_cons.mp hc with rfl | hc
      · exact h.1 ▸ List.mem_cons_self _ _
      · exact List.mem_cons_of_mem _ (ih bs h.2 c hc)

theorem containsSub_mem {n : List Char} : ∀ {s : List Char},
    containsSub n s = true → ∀ c, c ∈ n → c ∈ s := by
  intro s
  induction s with
  | nil =>
    intro h c hc
    cases n with
    | nil => exact absurd hc (List.not_mem_nil c)
    | cons a as => simp [containsSub, hasPrefixL] at h
  | cons b bs ih =>
    intro h c hc
    simp only [containsSub, Bool.or_eq_true] at h
    rcases h with h | h
    · exact hasPrefixL_mem n _ h c hc
    · exact List.mem_cons_of_mem _ (ih h c hc)

theorem containsSub_of_prefix {n s : List Char} (h : hasPrefixL n s = true) :
    containsSub n s = true := by
  cases s with
  | nil => simpa [containsSub] using h
  | cons b bs => simp [containsSub, h]

theorem containsSub_append_right {n y : List Char} (h : containsSub n y = true) :
    ∀ x : List Char, containsSub n (x ++ y) = true := by
  intro x
  induction x with
  | nil => simpa using h
  | cons a as ih => simp [containsSub, ih]

/-- Adjacent character pairs of a string; used to refute three-character
substring claims on strings built from generic parts. -/
def pairsL : List Char → List (Char × Char)
  | [] => []
  | [_] => []
  | a :: b :: t => (a, b) :: pairsL (b :: t)

theorem pairsL_cons_sub {q : Char × Char} {t : List Char} (c : Char)
    (h : q ∈ pairsL t) : q ∈ pairsL (c :: t) := by
  cases t with
  | nil => simp [pairsL] at h
  | cons b t' => exact List.mem_cons_of_mem _ h

theorem contains_pair2 {u v : Char} {w : List Char} : ∀ {s : List Char},
    containsSub (u :: v :: w) s = true → (u, v) ∈ pairsL s := by
  intro s
  induction s with
  | nil => intro h; simp [containsSub, hasPrefixL] at h
  | cons b bs ih =>
    intro h
    simp only [containsSub, Bool.or_eq_true] at h
    rcases h with h | h
    · cases bs with
      | nil => simp [hasPrefixL] at h
      | cons b2 bs2 =>
        simp only [hasPrefixL, Bool.and_eq_true, beq_iff_eq] at h
        obtain ⟨rfl, rfl, _⟩ := h
        exact List.mem_cons_self _ _
    · exact pairsL_cons_sub b (ih h)

theorem pairsL_append_sub : ∀ (x y : List Char) (q : Char × Char),
    q ∈ pairsL (x ++ y) →
    q ∈ pairsL x ∨ q ∈ pairsL y ∨ (x.getLast? = some q.1 ∧ y.head? = some q.2) := by
  intro x
  induction x with
  | nil => intro y q h; exact Or.inr (Or.inl h)
  | cons a x' ih =>
    intro y q h
    cases x' with
    | nil =>
      cases y with
      | nil => simp [pairsL] at h
      | cons b y' =>
        simp only [List.singleton_append, pairsL, List.mem_cons] at h
        rcases h with rfl | h
        · exact Or.inr (Or.inr (by simp))
        · exact Or.inr (Or.inl h)
    | cons a2 x'' =>
      simp only [List.cons_append, pairsL, List.mem_cons] at h
      rcases h with rfl | h
      · exact Or.inl (List.mem_cons_self _ _)
      · rcases ih y q h with h' | h' | h'
        · exact Or.inl (pairsL_cons_sub a h')
        · exact Or.inr (Or.inl h')
        · exact Or.inr (Or.inr ⟨by simpa using h'.1, h'.2⟩)

theorem pairsL_mem : ∀ {s : List Char} {q : Char × Char},
    q ∈ pairsL s → q.1 ∈ s ∧ q.2 ∈ s := by
  intro s
  induction s with
  | nil => intro q h; simp [pairsL] at h
  | cons a t ih =>
    intro q h
    cases t with
    | nil => simp [pairsL] at h
    | cons b t' =>
      simp only [pairsL, List.mem_cons] at h
      rcases h with rfl | h
      · exact ⟨List.mem_cons_self _ _, List.mem_cons_of_mem _ (List.mem_cons_self _ _)⟩
      · exact ⟨List.mem_cons_of_mem _ (ih h).1, List.mem_cons_of_mem _ (ih h).2⟩

/-! ## Run-extraction lemmas -/

/-- True when the list is empty or starts with a character failing `p`. -/
def headNotP (p : Char → Bool) : List Char → Bool
  | [] => true
  | c :: _ => !p c

theorem dropWhile_len_le {α} (p : α → Bool) : ∀ l : List α, (l.dropWhile p).length ≤ l.length
  | [] => Nat.le_refl _
  | a :: t => by
    simp only [List.dropWhile]
    split
    · exact Nat.le_succ_of_le (dropWhile_len_le p t)
    · exact Nat.le_refl _

theorem headNotP_dropWhile (p : Char → Bool) (t : List Char) :
    headNotP p (t.dropWhile p) = true := by
  induction t with
  | nil => rfl
  | cons c t ih =>
    by_cases h : p c
    · simpa [List.dropWhile_cons, h] using ih
    · simp [List.dropWhile_cons, h, headNotP]

theorem runsByGo_chunk (p : Char → Bool) :
    ∀ (A : List Char), (∀ c ∈ A, p c = true) → ∀ cur r,
      runsByGo p cur (A ++ r) = runsByGo p (A.reverse ++ cur) r := by
  intro A
  induction A with
  | nil => intro _ cur r; simp
  | cons a A' ih =>
    intro h cur r
    have ha : p a = true := h a (List.mem_cons_self _ _)
    have hstep : runsByGo p cur ((a :: A') ++ r) = runsByGo p (a :: cur) (A' ++ r) := by
      simp [runsByGo, ha]
    rw [hstep, ih (fun c hc => h c (List.mem_cons_of_mem _ hc)) (a :: cur) r]
    simp

theorem runsByGo_flush (p : Char → Bool) {cur : List Char} (hcur : cur ≠ []) :
    ∀ {r}, headNotP p r = true → runsByGo p cur r = cur.reverse :: runsByGo p [] r := by
  intro r hr
  cases r with
  | nil => simp [runsByGo, hcur]
  | cons c t =>
    simp only [headNotP, Bool.not_eq_true'] at hr
    simp [runsByGo, hr, hcur]

theorem runsByGo_skipChar (p : Char → Bool) {c : Char} (hc : p c = false) (r : List Char) :
    runsByGo p [] (c :: r) = runsByGo p [] r := by
  simp [runsByGo, hc]

theorem runsBy_skip (p : Char → Bool) :
    ∀ (x : List Char), (∀ c ∈ x, p c = false) → ∀ r, runsBy p (x ++ r) = runsBy p r := by
  intro x
  induction x with
  | nil => intro _ r; rfl
  | cons a x' ih =>
    intro h r
    have := runsByGo_skipChar p (h a (List.mem_cons_self _ _)) (x' ++ r)
    simpa [runsBy, this] using ih (fun c hc => h c (List.mem_cons_of_mem _ hc)) r

theorem runsBy_chunk (p : Char → Bool) {A : List Char} (hA : A ≠ [])
    (hall : ∀ c ∈ A, p c = true) {r : List Char} (hr : headNotP p r = true) :
    runsBy p (A ++ r) = A :: runsBy p r := by
  have h1 := runsByGo_chunk p A hall [] r
  have h2 : runsByGo p A.reverse r = A.reverse.reverse :: runsByGo p [] r :=
    runsByGo_flush p (by simpa using hA) hr
  simp only [runsBy, List.append_nil] at h1 ⊢
  rw [h1, h2, List.reverse_reverse]

theorem runsByGo_sound (p : Char → Bool) :
    ∀ (s cur : List Char), (∀ c ∈ cur, p c = true) →
      ∀ r ∈ runsByGo p cur s, r ≠ [] ∧ ∀ c ∈ r, p c = true := by
  intro s
  induction s with
  | nil =>
    intro cur hcur r hr
    by_cases h : cur.isEmpty
    · simp [runsByGo, h] at hr
    · simp only [runsByGo, Bool.not_eq_true] at hr
      rw [if_neg (by simp [h])] at hr
      rcases List.mem_singleton.mp hr with rfl
      refine ⟨by simpa [List.isEmpty_iff] using h, ?_⟩
      intro c hc
      exact hcur c (List.mem_reverse.mp hc)
  | cons a t ih =>
    intro cur hcur r hr
    by_cases hp : p a
    · rw [show runsByGo p cur (a :: t) = runsByGo p (a :: cur) t by simp [runsByGo, hp]] at hr
      refine ih (a :: cur) ?_ r hr
      intro c hc
      rcases List.mem_cons.mp hc with rfl | hc
      · exact hp
      · exact hcur c hc
    · by_cases hc : cur.isEmpty
      · rw [show runsByGo p cur (a :: t) = runsByGo p [] t by simp [runsByGo, hp, hc]] at hr
        exact ih [] (by simp) r hr
      · rw [show runsByGo p cur (a :: t) = cur.reverse :: runsByGo p [] t by
          simp [runsByGo, hp, hc]] at hr
        rcases List.mem_cons.mp hr with rfl | hr
        · refine ⟨by simpa [List.isEmpty_iff] using hc, ?_⟩
          intro c hcm
          exact hcur c (List.mem_reverse.mp hcm)
        · exact ih [] (by simp) r hr

theorem runsBy_sound (p : Char → Bool) (s : List Char) :
    ∀ r ∈ runsBy p s, r ≠ [] ∧ ∀ c ∈ r, p c = true :=
  runsByGo_sound p s [] (by simp)

/-! ## Word-replacement lemmas -/

theorem replWGo_skipChar (w : List Char) (d : Char) {c : Char}
    (hc : isWordChar c = false) (r : List Char) :
    replWGo w d [] (c :: r) = c :: replWGo w d [] r := by
  simp [replWGo, hc, flushW]

theorem replWGo_chunk (w : List Char) (d : Char) :
    ∀ (A : List Char), (∀ c ∈ A, isWordChar c = true) → ∀ cur r,
      replWGo w d cur (A ++ r) = replWGo w d (A.reverse ++ cur) r := by
  intro A
  induction A with
  | nil => intro _ cur r; simp
  | cons a A' ih =>
    intro h cur r
    have ha := h a (List.mem_cons_self _ _)
    have hstep : replWGo w d cur ((a :: A') ++ r) = replWGo w d (a :: cur) (A' ++ r) := by
      simp [replWGo, ha]
    rw [hstep, ih (fun c hc => h c (List.mem_cons_of_mem _ hc)) (a :: cur) r]
    simp

theorem replWGo_flushAt (w : List Char) (d : Char) (cur : List Char) :
    ∀ {r}, headNonWord r = true →
      replWGo w d cur r = flushW w d cur ++ replWGo w d [] r := by
  intro r hr
  cases r with
  | nil => simp [replWGo, flushW]
  | cons c t =>
    simp only [headNonWord, Bool.not_eq_true'] at hr
    simp [replWGo, hr, flushW]

theorem headNonWord_eq_headNotP (r : List Char) : headNonWord r = headNotP isWordChar r := by
  cases r <;> rfl

theorem replW_runs_id (w : List Char) (d : Char) :
    ∀ (n : Nat) (s : List Char), s.length ≤ n →
      (∀ r ∈ wordRuns s, r ≠ w) → replW w d s = s := by
  intro n
  induction n with
  | zero =>
    intro s hs _
    have : s = [] := List.length_eq_zero.mp (Nat.le_zero.mp hs)
    subst this; rfl
  | succ n ih =>
    intro s hs hruns
    cases s with
    | nil => rfl
    | cons c t =>
      by_cases hw : isWordChar c
      · -- a word run starts here
        set A := c :: t.takeWhile isWordChar with hA
        set rest := t.dropWhile isWordChar with hrest
        have hsplit : c :: t = A ++ rest := by
          simp [hA, hrest, List.takeWhile_append_dropWhile]
        have hallA : ∀ x ∈ A, isWordChar x = true := by
          intro x hx
          rcases List.mem_cons.mp hx with rfl | hx
          · exact hw
          · exact List.mem_takeWhile_imp hx
        have hhd : headNotP isWordChar rest = true := headNotP_dropWhile isWordChar t
        have hrunsEq : wordRuns (c :: t) = A :: wordRuns rest := by
          rw [hsplit]
          exact runsBy_chunk isWordChar (by simp [hA]) hallA hhd
        have hAw : A ≠ w := hruns A (by rw [hrunsEq]; exact List.mem_cons_self _ _)
        have hrest_len : rest.length ≤ n := by
          have h1 : rest.length ≤ t.length := dropWhile_len_le _ t
          have h2 : t.length + 1 ≤ n + 1 := by simpa using hs
          omega
        have hrec : replW w d rest = rest := by
          refine ih rest hrest_len ?_
          intro r hr
          exact hruns r (by rw [hrunsEq]; exact List.mem_cons_of_mem _ hr)
        calc replW w d (c :: t)
            = replWGo w d [] (A ++ rest) := by rw [← hsplit]; rfl
          _ = replWGo w d A.reverse rest := by
              rw [replWGo_chunk w d A hallA [] rest]; simp
          _ = flushW w d A.reverse ++ replWGo w d [] rest := by
              rw [replWGo_flushAt w d A.reverse
                (by rw [headNonWord_eq_headNotP]; exact hhd)]
          _ = A ++ rest := by
              have : flushW w d A.reverse = A := by
                simp only [flushW, List.isEmpty_iff, List.reverse_eq_nil_iff,
                  List.reverse_reverse]
                rw [if_neg (by simp [hA]), if_neg (by simpa using hAw)]
              rw [this]; exact congrArg (A ++ ·) hrec
          _ = c :: t := hsplit.symm
      · -- non-word character: kept verbatim
        have hstep := replWGo_skipChar w d (by simpa using hw) t
        have hrunsEq : wordRuns (c :: t) = wordRuns t := by
          have := runsBy_skip isWordChar [c] (by simpa using hw) t
          simpa [wordRuns] using this
        have hrec : replW w d t = t := by
          refine ih t (by simpa using Nat.le_of_succ_le_succ hs) ?_
          intro r hr
          exact hruns r (by rw [hrunsEq]; exact hr)
        calc replW w d (c :: t) = c :: replW w d t := hstep
          _ = c :: t := by rw [hrec]

/-- `re.sub(rf'\b{w}\b', d, s)` leaves `s` unchanged when no maximal word run
of `s` equals `w`. -/
theorem replW_eq_self {w : List Char} {d : Char} {s : List Char}
    (h : ∀ r ∈ wordRuns s, r ≠ w) : replW w d s = s :=
  replW_runs_id w d s.length s (Nat.le_refl _) h

theorem foldl_replW_id : ∀ (ws : List (List Char × Char)) (s : List Char),
    (∀ wd ∈ ws, ∀ r ∈ wordRuns s, r ≠ wd.1) →
    ws.foldl (fun acc wd => replW wd.1 wd.2 acc) s = s := by
  intro ws
  induction ws with
  | nil => intro s _; rfl
  | cons w ws' ih =>
    intro s h
    have hstep : replW w.1 w.2 s = s :=
      replW_eq_self (fun r hr => h w (List.mem_cons_self _ _) r hr)
    simp only [List.foldl, hstep]
    exact ih s (fun wd hwd r hr => h wd (List.mem_cons_of_mem _ hwd) r hr)

/-- `parse`'s number-word substitution leaves `s` unchanged when no maximal
word run of `s` is a number name. -/
theorem applyNumberWords_eq_self {s : List Char}
    (h : ∀ r ∈ wordRuns s, ∀ wd ∈ numberMapL, r ≠ wd.1) : applyNumberWords s = s :=
  foldl_replW_id numberMapL s (fun wd hwd r hr => h r hr wd hwd)

/-! ## Strip, lower-case and character facts -/

theorem dropWhile_of_headNot {p : Char → Bool} {l : List Char}
    (h : headNotP p l = true) : l.dropWhile p = l := by
  cases l with
  | nil => rfl
  | cons c t =>
    simp only [headNotP, Bool.not_eq_true'] at h
    simp [List.dropWhile_cons, h]

theorem stripL_id {s : List Char} (h1 : headNotP isSpaceC s = true)
    (h2 : headNotP isSpaceC s.reverse = true) : stripL s = s := by
  simp [stripL, dropWhile_of_headNot h1, dropWhile_of_headNot h2]

theorem lowerL_id {s : List Char} (h : ∀ c ∈ s, lowerC c = c) : lowerL s = s := by
  simpa [lowerL] using List.map_congr_left h

theorem isDigitC_mem {c : Char} (h : isDigitC c = true) : c ∈ digitChars := by
  simpa [isDigitC] using List.elem_iff.mp h

theorem lowerC_digit : ∀ c ∈ digitChars, lowerC c = c := by decide

theorem isWordChar_digit : ∀ c ∈ digitChars, isWordChar c = true := by decide

theorem isSpaceC_digit : ∀ c ∈ digitChars, isSpaceC c = false := by decide

/-! ## Token-level facts -/

theorem detOp_glyph {s : List Char} {g : String} (h : detOp s = some g) : g ∈ binGlyphs := by
  simp only [detOp] at h
  split at h
  · cases h; decide
  · split at h
    · cases h; decide
    · split at h
      · cases h; decide
      · split at h
        · cases h; decide
        · exact Option.noConfusion h

theorem sing_digit_in_alphabet : ∀ c ∈ digitChars, sing c ∈ tokenAlphabet := by decide

theorem sing_digit_not_bin : ∀ c ∈ digitChars, sing c ∉ binGlyphs := by decide

theorem sing_digit_not_unary : ∀ c ∈ digitChars, sing c ∉ unaryTokens := by decide

theorem sing_digit_ne_eq : ∀ c ∈ digitChars, sing c ≠ "=" := by decide

theorem bin_sub_alphabet : ∀ g ∈ binGlyphs, g ∈ tokenAlphabet := by decide

theorem digitRuns_sound (s : List Char) :
    ∀ r ∈ digitRuns s, r ≠ [] ∧ ∀ c ∈ r, c ∈ digitChars := by
  intro r hr
  have := runsBy_sound isDigitC s r hr
  exact ⟨this.1, fun c hc => isDigitC_mem (this.2 c hc)⟩

theorem emitNums_mem (op : String) : ∀ (nums : List (List Char)) (t : String),
    t ∈ emitNums op nums → t = op ∨ ∃ n ∈ nums, ∃ c ∈ n, t = sing c := by
  intro nums
  induction nums with
  | nil => intro t ht; simp [emitNums] at ht
  | cons n rest ih =>
    intro t ht
    cases rest with
    | nil =>
      simp only [emitNums, List.mem_map] at ht
      obtain ⟨c, hc, rfl⟩ := ht
      exact Or.inr ⟨n, List.mem_cons_self _ _, c, hc, rfl⟩
    | cons n2 rest2 =>
      simp only [emitNums, List.mem_append, List.mem_cons, List.mem_map] at ht
      rcases ht with ⟨c, hc, rfl⟩ | rfl | ht
      · exact Or.inr ⟨n, List.mem_cons_self _ _, c, hc, rfl⟩
      · exact Or.inl rfl
      · rcases ih t ht with h | ⟨m, hm, c, hc, rfl⟩
        · exact Or.inl h
        · exact Or.inr ⟨m, List.mem_cons_of_mem _ hm, c, hc, rfl⟩

/-! ## The committed-result shape of parser output

Every clause result either contains no binary operator glyph, or ends in
`=` and contains no unary token.  These two shapes make the invariant of
claim C2 hold for arbitrary concatenations produced by `parse`. -/

/-- No binary operator glyph occurs in the token list. -/
def NoBin (L : List String) : Prop := ∀ t ∈ L, t ∉ binGlyphs

/-- No unary token occurs in the token list. -/
def NoUnary (L : List String) : Prop := ∀ t ∈ L, t ∉ unaryTokens

/-- The token list ends with `=`. -/
def EndsEq (L : List String) : Prop := L.getLast? = some "="

/-- The clause shape: operator-free, or committed by a trailing `=` with no
unary token. -/
def ClauseShape (L : List String) : Prop := NoBin L ∨ (EndsEq L ∧ NoUnary L)

theorem noBin_nil : NoBin [] := by intro t ht; cases ht

theorem clauseShape_digits_unary {A : List Char} (hA : ∀ c ∈ A, c ∈ digitChars)
    (u : List String) (hu : ∀ t ∈ u, t ∉ binGlyphs) :
    NoBin (A.map sing ++ u) := by
  intro t ht
  rcases List.mem_append.mp ht with ht | ht
  · obtain ⟨c, hc, rfl⟩ := List.mem_map.mp ht
    exact sing_digit_not_bin c (hA c hc)
  · exact hu t ht

theorem endsEq_append (L : List String) : EndsEq (L ++ ["="]) := by
  simp [EndsEq, List.getLast?_concat]

theorem noUnary_digits_ops {A : List String}
    (h : ∀ t ∈ A, (∃ c ∈ digitChars, t = sing c) ∨ t ∈ binGlyphs ∨ t = "=") :
    NoUnary A := by
  intro t ht hu
  rcases h t ht with ⟨c, hc, rfl⟩ | hb | rfl
  · exact sing_digit_not_unary c hc hu
  · exact (by decide : ∀ x ∈ binGlyphs, x ∉ unaryTokens) t hb hu
  · exact (by decide : ("=" : String) ∉ unaryTokens) hu

theorem headD_mem_list {L : List (List Char)} (h : L ≠ []) : L.headD [] ∈ L := by
  cases L with
  | nil => exact absurd rfl h
  | cons a t => exact List.mem_cons_self _ _

theorem psopNum_mem (s : List Char) (numbers : List (List Char))
    (hnum : ∀ r ∈ numbers, r ≠ [] ∧ ∀ c ∈ r, c ∈ digitChars) :
    ∀ t ∈ psopNum s numbers, (∃ c ∈ digitChars, t = sing c) ∨ t ∈ unaryTokens := by
  intro t ht
  simp only [psopNum] at ht
  split at ht
  · rcases List.mem_append.mp ht with ht | ht
    · obtain ⟨c, hc, rfl⟩ := List.mem_map.mp ht
      have hne : numbers ≠ [] := by
        intro h; subst h; simp at *
      have hd := hnum _ (headD_mem_list hne)
      exact Or.inl ⟨c, hd.2 c hc, rfl⟩
    · split at ht
      · rcases List.mem_singleton.mp ht with rfl; exact Or.inr (by decide)
      · split at ht
        · rcases List.mem_singleton.mp ht with rfl; exact Or.inr (by decide)
        · cases ht
  · split at ht
    · rcases List.mem_singleton.mp ht with rfl; exact Or.inr (by decide)
    · split at ht
      · rcases List.mem_singleton.mp ht with rfl; exact Or.inr (by decide)
      · cases ht

theorem psopTail_struct (s : List Char) (numbers : List (List Char))
    (operation : Option String)
    (hnum : ∀ r ∈ numbers, r ≠ [] ∧ ∀ c ∈ r, c ∈ digitChars)
    (hop : ∀ g, operation = some g → g ∈ binGlyphs) :
    ClauseShape (psopTail s numbers operation) ∧
      ∀ t ∈ psopTail s numbers operation, t ∈ tokenAlphabet := by
  have hNumCase : ClauseShape (psopNum s numbers) ∧
      ∀ t ∈ psopNum s numbers, t ∈ tokenAlphabet := by
    constructor
    · left
      intro t ht hb
      rcases psopNum_mem s numbers hnum t ht with ⟨c, hc, rfl⟩ | hu
      · exact sing_digit_not_bin c hc hb
      · exact (by decide : ∀ x ∈ unaryTokens, x ∉ binGlyphs) t hu hb
    · intro t ht
      rcases psopNum_mem s numbers hnum t ht with ⟨c, hc, rfl⟩ | hu
      · exact sing_digit_in_alphabet c hc
      · exact (by decide : ∀ x ∈ unaryTokens, x ∈ tokenAlphabet) t hu
  match operation with
  | none => exact hNumCase
  | some op =>
    have hopg : op ∈ binGlyphs := hop op rfl
    simp only [psopTail]
    by_cases hlen : numbers.length ≥ 2
    · simp only [hlen, if_true]
      have hmem : ∀ t ∈ emitNums op numbers ++ ["="],
          (∃ c ∈ digitChars, t = sing c) ∨ t ∈ binGlyphs ∨ t = "=" := by
        intro t ht
        rcases List.mem_append.mp ht with ht | ht
        · rcases emitNums_mem op numbers t ht with rfl | ⟨n, hn, c, hc, rfl⟩
          · exact Or.inr (Or.inl hopg)
          · exact Or.inl ⟨c, (hnum n hn).2 c hc, rfl⟩
        · rcases List.mem_singleton.mp ht with rfl; exact Or.inr (Or.inr rfl)
      refine ⟨Or.inr ⟨endsEq_append _, ?_⟩, ?_⟩
      · intro t ht hu
        rcases hmem t ht with ⟨c, hc, rfl⟩ | hb | rfl
        · exact sing_digit_not_unary c hc hu
        · exact (by decide : ∀ x ∈ binGlyphs, x ∉ unaryTokens) t hb hu
        · exact (by decide : ("=" : String) ∉ unaryTokens) hu
      · intro t ht
        rcases hmem t ht with ⟨c, hc, rfl⟩ | hb | rfl
        · exact sing_digit_in_alphabet c hc
        · exact bin_sub_alphabet t hb
        · decide
    · simp only [hlen, if_false]
      exact hNumCase

theorem psop_struct (s : List Char) :
    ClauseShape (psop s) ∧ ∀ t ∈ psop s, t ∈ tokenAlphabet := by
  have hnum := digitRuns_sound s
  have hopf : ∀ g, detOp s = some g → g ∈ binGlyphs := fun g h => detOp_glyph h
  unfold psop
  cases hdet : detOp s with
  | none => exact psopTail_struct s (digitRuns s) none hnum (by simp)
  | some op =>
    have hopg : op ∈ binGlyphs := detOp_glyph hdet
    have htail := psopTail_struct s (digitRuns s) (some op) hnum
      (by intro g h; cases h; exact hopg)
    by_cases hand : containsSub "and".toList s = true
    · simp only [hand, if_true]
      by_cases hlen : (splitAnd s).length ≥ 2
      · simp only [hlen, if_true]
        by_cases hlr : (!(digitRuns ((splitAnd s).getD 0 [])).isEmpty &&
            !(digitRuns ((splitAnd s).getD 1 [])).isEmpty) = true
        · simp only [hlr, if_true]
          simp only [Bool.and_eq_true, Bool.not_eq_true'] at hlr
          have hne1 : digitRuns ((splitAnd s).getD 0 []) ≠ [] := by
            intro h; rw [h] at hlr; simp at hlr
          have hne2 : digitRuns ((splitAnd s).getD 1 []) ≠ [] := by
            intro h; rw [h] at hlr; simp at hlr
          have hlA := digitRuns_sound ((splitAnd s).getD 0 []) _ (headD_mem_list hne1)
          have hlB := digitRuns_sound ((splitAnd s).getD 1 []) _ (headD_mem_list hne2)
          set A := (digitRuns ((splitAnd s).getD 0 [])).headD [] with hA
          set B := (digitRuns ((splitAnd s).getD 1 [])).headD [] with hB
          have hmem : ∀ t ∈ A.map sing ++ op :: B.map sing ++ ["="],
              (∃ c ∈ digitChars, t = sing c) ∨ t ∈ binGlyphs ∨ t = "=" := by
            intro t ht
            rcases List.mem_append.mp ht with ht | ht
            · rcases List.mem_append.mp ht with ht | ht
              · obtain ⟨c, hc, rfl⟩ := List.mem_map.mp ht
                exact Or.inl ⟨c, hlA.2 c hc, rfl⟩
              · rcases List.mem_cons.mp ht with rfl | ht
                · exact Or.inr (Or.inl hopg)
                · obtain ⟨c, hc, rfl⟩ := List.mem_map.mp ht
                  exact Or.inl ⟨c, hlB.2 c hc, rfl⟩
            · rcases List.mem_singleton.mp ht with rfl
              exact Or.inr (Or.inr rfl)
          have hlast : EndsEq (A.map sing ++ op :: B.map sing ++ ["="]) := by
            simp only [EndsEq]
            rw [List.getLast?_concat]
          refine ⟨Or.inr ⟨hlast, ?_⟩, ?_⟩
          · intro t ht hu
            rcases hmem t ht with ⟨c, hc, rfl⟩ | hb | rfl
            · exact sing_digit_not_unary c hc hu
            · exact (by decide : ∀ x ∈ binGlyphs, x ∉ unaryTokens) t hb hu
            · exact (by decide : ("=" : String) ∉ unaryTokens) hu
          · intro t ht
            rcases hmem t ht with ⟨c, hc, rfl⟩ | hb | rfl
            · exact sing_digit_in_alphabet c hc
            · exact bin_sub_alphabet t hb
            · decide
        · simp only [hlr, if_false]
          exact htail
      · simp only [hlen, if_false]
        exact htail
    · simp only [hand, if_false]
      exact htail

theorem hasBinGlyph_eq_false_of_noBin {L : List String} (h : NoBin L) :
    hasBinGlyph L = false := by
  cases hb : hasBinGlyph L
  · rfl
  · exfalso
    simp only [hasBinGlyph, List.any_eq_true] at hb
    obtain ⟨g, hg, hmem⟩ := hb
    exact h g (List.elem_iff.mp hmem) hg

theorem forceEq_of_shape {L : List String} (h : ClauseShape L) : forceEq L = L := by
  rcases h with h | ⟨he, _⟩
  · simp [forceEq, hasBinGlyph_eq_false_of_noBin h]
  · have hb : (L.getLastD "" != "=") = false := by
      rw [List.getLastD_eq_getLast?, he]; decide
    unfold forceEq
    rw [hb]
    simp

theorem singletonTok_struct {t0 : String} (hb : t0 ∉ binGlyphs) (ha : t0 ∈ tokenAlphabet) :
    NoBin [t0] ∧ ∀ t ∈ [t0], t ∈ tokenAlphabet := by
  constructor
  · intro t ht
    rcases List.mem_singleton.mp ht with rfl
    exact hb
  · intro t ht
    rcases List.mem_singleton.mp ht with rfl
    exact ha

theorem secondClause_struct (sp : List Char) :
    ClauseShape (secondClause sp) ∧ ∀ t ∈ secondClause sp, t ∈ tokenAlphabet := by
  have hsq := singletonTok_struct (show ("square" : String) ∉ binGlyphs by decide)
    (by decide)
  have hrt := singletonTok_struct (show ("√" : String) ∉ binGlyphs by decide)
    (by decide)
  unfold secondClause
  split
  · exact ⟨Or.inl hsq.1, hsq.2⟩
  · split
    · exact ⟨Or.inl hrt.1, hrt.2⟩
    · split
      · exact ⟨Or.inl hsq.1, hsq.2⟩
      · exact psop_struct sp

/-- The committed-before-unary property of a button sequence: every binary
operator glyph occurring before a unary token has an `=` strictly between
them. -/
def okSeq (L : List String) : Prop :=
  ∀ i j : Nat, i < j → j < L.length →
    L.getD i "" ∈ binGlyphs → L.getD j "" ∈ unaryTokens →
    ∃ k, i < k ∧ k < j ∧ L.getD k "" = "="

theorem getD_mem_of_lt {L : List String} {i : Nat} (h : i < L.length) :
    L.getD i "" ∈ L := by
  rw [List.getD_eq_getElem?_getD, List.getElem?_eq_getElem h]
  exact List.getElem_mem h

theorem endsEq_getD {L : List String} (h : EndsEq L) :
    L.getD (L.length - 1) "" = "=" := by
  rw [List.getD_eq_getElem?_getD, ← List.getLast?_eq_getElem?, h]; rfl

theorem endsEq_ne_nil {L : List String} (h : EndsEq L) : L ≠ [] := by
  intro hnil; rw [hnil] at h; simp [EndsEq] at h

theorem okSeq_of_shape {L : List String} (h : ClauseShape L) : okSeq L := by
  intro i j hij hj hbin huna
  rcases h with h | ⟨_, hnu⟩
  · exact absurd hbin (h _ (getD_mem_of_lt (Nat.lt_trans hij hj)))
  · exact absurd huna (hnu _ (getD_mem_of_lt hj))

theorem okSeq_append {X Y : List String} (hX : ClauseShape X) (hY : ClauseShape Y) :
    okSeq (X ++ Y) := by
  intro i j hij hj hbin huna
  rw [List.length_append] at hj
  by_cases hjX : j < X.length
  · -- both indices fall in X
    have hiX : i < X.length := Nat.lt_trans hij hjX
    rw [List.getD_append _ _ _ _ hiX] at hbin
    rw [List.getD_append _ _ _ _ hjX] at huna
    rcases hX with h | ⟨_, hnu⟩
    · exact absurd hbin (h _ (getD_mem_of_lt hiX))
    · exact absurd huna (hnu _ (getD_mem_of_lt hjX))
  · by_cases hiX : i < X.length
    · -- binary in X, unary in Y: X must end with `=`
      rw [List.getD_append _ _ _ _ hiX] at hbin
      have hShape : EndsEq X ∧ NoUnary X := by
        rcases hX with h | h
        · exact absurd hbin (h _ (getD_mem_of_lt hiX))
        · exact h
      refine ⟨X.length - 1, ?_, ?_, ?_⟩
      · -- i < X.length - 1 because position i holds a glyph, not `=`
        have hne : X.getD i "" ≠ "=" := by
          intro he
          exact (by decide : ("=" : String) ∉ binGlyphs) (he ▸ hbin)
        have hle : i ≤ X.length - 1 := by omega
        rcases Nat.lt_or_eq_of_le hle with h | h
        · exact h
        · exact absurd (h ▸ endsEq_getD hShape.1) hne
      · omega
      · have hlt : X.length - 1 < X.length :=
          Nat.sub_lt (List.length_pos.mpr (endsEq_ne_nil hShape.1)) Nat.one_pos
        rw [List.getD_append _ _ _ _ hlt]
        exact endsEq_getD hShape.1
    · -- both indices fall in Y
      have hiY : X.length ≤ i := Nat.le_of_not_lt hiX
      rw [List.getD_append_right _ _ _ _ hiY] at hbin
      rw [List.getD_append_right _ _ _ _ (by omega)] at huna
      rcases hY with h | ⟨_, hnu⟩
      · exact absurd hbin (h _ (getD_mem_of_lt (by omega)))
      · exact absurd huna (hnu _ (getD_mem_of_lt (by omega)))

/-- Main parser invariant: every output of `parse` satisfies the
committed-before-unary property. -/
theorem parseL_okSeq (s0 : List Char) : okSeq (parseL s0) := by
  simp only [parseL]
  split
  · rw [forceEq_of_shape (psop_struct _).1]
    exact okSeq_append (psop_struct _).1 (secondClause_struct _).1
  · rw [forceEq_of_shape (psop_struct _).1]
    exact okSeq_of_shape (psop_struct _).1

/-- Main alphabet invariant: `parse` only emits tokens of the fixed
alphabet. -/
theorem parseL_alphabet (s0 : List Char) : ∀ t ∈ parseL s0, t ∈ tokenAlphabet := by
  simp only [parseL]
  split
  · rw [forceEq_of_shape (psop_struct _).1]
    intro t ht
    rcases List.mem_append.mp ht with ht | ht
    · exact (psop_struct _).2 t ht
    · exact (secondClause_struct _).2 t ht
  · rw [forceEq_of_shape (psop_struct _).1]
    exact (psop_struct _).2

/-! ## Operator-priority facts (claim C3) -/

/-- The fixed-priority operator table as the specification words it: keyword
groups in priority order, first match wins. -/
def opPriority : List (List (List Char) × String) :=
  [(["add".toList, "plus".toList], "+"),
   (["subtract".toList, "minus".toList], "-"),
   (["multiply".toList, "times".toList, "by".toList], "×"),
   (["divide".toList], "÷")]

/-- Specification-shaped operator scan: first keyword group with a member
occurring in the instruction decides the glyph. -/
def detOpSpec (s : List Char) : Option String :=
  (opPriority.find? (fun kw => kw.1.any (fun k => containsSub k s))).map (fun kw => kw.2)

theorem detOp_eq_detOpSpec (s : List Char) : detOp s = detOpSpec s := by
  unfold detOp detOpSpec opPriority
  cases hc1 : containsSub "add".toList s || containsSub "plus".toList s with
  | true =>
    rw [List.find?_cons_of_pos _ (by simpa using hc1)]
    rfl
  | false =>
    rw [List.find?_cons_of_neg _ (by simpa using hc1)]
    cases hc2 : containsSub "subtract".toList s || containsSub "minus".toList s with
    | true =>
      rw [List.find?_cons_of_pos _ (by simpa using hc2)]
      rfl
    | false =>
      rw [List.find?_cons_of_neg _ (by simpa using hc2)]
      cases hc3 : containsSub "multiply".toList s || containsSub "times".toList s
          || containsSub "by".toList s with
      | true =>
        rw [List.find?_cons_of_pos _ (by simpa [Bool.or_assoc] using hc3)]
        rfl
      | false =>
        rw [List.find?_cons_of_neg _ (by simpa [Bool.or_assoc] using hc3)]
        cases hc4 : containsSub "divide".toList s with
        | true =>
          rw [List.find?_cons_of_pos _ (by simpa using hc4)]
          rfl
        | false =>
          rw [List.find?_cons_of_neg _ (by simpa using hc4)]
          rfl

theorem detOp_not_div_of_by {s : List Char} (hby : containsSub "by".toList s = true) :
    detOp s ≠ some "÷" := by
  unfold detOp
  split
  · decide
  · split
    · decide
    · have hcond : (containsSub "multiply".toList s || containsSub "times".toList s
          || containsSub "by".toList s) = true := by rw [hby]; simp
      rw [if_pos hcond]
      decide

/-! ## Resolver lemmas (claim C1) -/

/-- A label that denotes the memory-add (`M+ …`) or sign-toggle button:
the exclusions the first pass enforces for the `+` token. -/
def plusExcluded (icon : List Char) : Bool :=
  hasPrefixL "m+".toList (lowerL icon) || containsSub "+/-".toList (lowerL icon)

theorem hasPrefixL_refl : ∀ l : List Char, hasPrefixL l l = true := by
  intro l
  induction l with
  | nil => rfl
  | cons a t ih => simp [hasPrefixL, ih]

theorem hasPrefixL_of_cons {a : Char} {x l : List Char}
    (h : hasPrefixL (a :: x) l = true) : hasPrefixL [a] l = true := by
  cases l with
  | nil => simp [hasPrefixL] at h
  | cons b bs =>
    simp only [hasPrefixL, Bool.and_eq_true] at h ⊢
    exact ⟨h.1, trivial⟩

/-- First-pass safety: whenever the `+` branch of the alias pass returns a
node, that node is in the map and its icon label is not a memory-add or
sign-toggle label. -/
theorem plusPass_safe : ∀ (nodes : Fdom) (nid : String), plusPass nodes = some nid →
    ∃ nd, (nid, nd) ∈ nodes ∧ plusExcluded nd.g_icon_name = false := by
  intro nodes
  induction nodes with
  | nil => intro nid h; simp [plusPass] at h
  | cons kv rest ih =>
    intro nid h
    obtain ⟨id0, nd0⟩ := kv
    simp only [plusPass] at h
    split at h
    · rcases Option.some.inj h with rfl
      rename_i hcond
      refine ⟨nd0, List.mem_cons_self _ _, ?_⟩
      simp only [Bool.or_eq_true, Bool.and_eq_true, Bool.not_eq_true', beq_iff_eq] at hcond
      rcases hcond with heq | ⟨⟨⟨_, _⟩, hm⟩, hpm⟩
      · rw [plusExcluded, heq]
        decide
      · simp only [plusExcluded, Bool.or_eq_false_iff]
        constructor
        · cases hp : hasPrefixL "m+".toList (lowerL nd0.g_icon_name)
          · rfl
          · have h2 : hasPrefixL "m".toList (lowerL nd0.g_icon_name) = true :=
              hasPrefixL_of_cons hp
            rw [hm] at h2
            exact Bool.noConfusion h2
        · exact hpm
    · obtain ⟨nd, hmem, hex⟩ := ih nid h
      exact ⟨nd, List.mem_cons_of_mem _ hmem, hex⟩

/-! ## Window-selection lemmas (claim C6) -/

/-- The target-window predicate as the specification words it: not excluded,
and the lower-cased title equals `calculator` or is prefixed by it. -/
def calcTitleOk (t : List Char) : Bool :=
  !(excludedTitles.any fun ex => containsSub ex t) &&
    (t == "calculator".toList || hasPrefixL "calculator".toList t)

/-- The selection loop picks exactly the first enumerated window whose
lower-cased title passes the exclusion-and-prefix predicate. -/
theorem selectCalcWindow_eq_find : ∀ ws : List (Nat × List Char),
    selectCalcWindow ws = (ws.find? fun p => calcTitleOk (lowerL p.2)).map (fun p => p.1) := by
  intro ws
  induction ws with
  | nil => rfl
  | cons w rest ih =>
    obtain ⟨wid, title⟩ := w
    simp only [selectCalcWindow]
    by_cases hex : (excludedTitles.any fun ex => containsSub ex (lowerL title)) = true
    · have hok : calcTitleOk (lowerL title) = false := by
        unfold calcTitleOk
        rw [hex]
        rfl
      rw [if_pos hex,
        List.find?_cons_of_neg rest
          (show ¬((fun p : Nat × List Char => calcTitleOk (lowerL p.2)) (wid, title) = true)
            from by simp [hok]),
        ih]
    · have hexF : (excludedTitles.any fun ex => containsSub ex (lowerL title)) = false := by
        cases hb : (excludedTitles.any fun ex => containsSub ex (lowerL title))
        · rfl
        · exact absurd hb hex
      by_cases hpre : ((lowerL title) == "calculator".toList
          || hasPrefixL "calculator".toList (lowerL title)) = true
      · have hor : lowerL title = "calculator".toList ∨
            hasPrefixL "calculator".toList (lowerL title) = true := by
          simpa using hpre
        have hcontains : containsSub "calculator".toList (lowerL title) = true := by
          rcases hor with h | h
          · exact containsSub_of_prefix (h ▸ hasPrefixL_refl _)
          · exact containsSub_of_prefix h
        have hok : calcTitleOk (lowerL title) = true := by
          unfold calcTitleOk
          rw [hexF, hpre]
          rfl
        rw [if_neg hex,
          if_pos (show (containsSub "calculator".toList (lowerL title) &&
            ((lowerL title) == "calculator".toList
              || hasPrefixL "calculator".toList (lowerL title))) = true
            from by rw [hcontains, hpre]; rfl),
          List.find?_cons_of_pos rest
            (show (fun p : Nat × List Char => calcTitleOk (lowerL p.2)) (wid, title) = true
              from hok)]
        rfl
      · have hpreF : ((lowerL title) == "calculator".toList
            || hasPrefixL "calculator".toList (lowerL title)) = false := by
          cases hb : ((lowerL title) == "calculator".toList
              || hasPrefixL "calculator".toList (lowerL title))
          · rfl
          · exact absurd hb hpre
        have hok : calcTitleOk (lowerL title) = false := by
          unfold calcTitleOk
          rw [hpreF]
          simp
        rw [if_neg hex,
          if_neg (show ¬((containsSub "calculator".toList (lowerL title) &&
            ((lowerL title) == "calculator".toList
              || hasPrefixL "calculator".toList (lowerL title))) = true)
            from by rw [hpreF]; simp),
          if_neg (show ¬((containsSub "calc".toList (lowerL title) &&
            ((lowerL title) == "calculator".toList
              || hasPrefixL "calculator".toList (lowerL title))) = true)
            from by rw [hpreF]; simp),
          List.find?_cons_of_neg rest
            (show ¬((fun p : Nat × List Char => calcTitleOk (lowerL p.2)) (wid, title) = true)
              from by simp [hok]),
          ih]

/-! ## Click-path lemmas (claims C4, C8, C9) -/

/-- Number of `locate()` invocations recorded in a trace. -/
def countLocate (tr : List Eff) : Nat :=
  (tr.filter fun e => e == Eff.locateE).length

/-- True when the trace contains no click effect. -/
def clickFree (tr : List Eff) : Bool :=
  tr.all fun e =>
    match e with
    | Eff.clickE _ _ => false
    | _ => true

theorem clickFree_append {a b : List Eff} :
    clickFree (a ++ b) = (clickFree a && clickFree b) := by
  simp [clickFree, List.all_append]

theorem clickFree_snoc {tr : List Eff} {e : Eff} (h : clickFree tr = true)
    (he : clickFree [e] = true) : clickFree (tr ++ [e]) = true := by
  rw [clickFree_append, h, he]
  rfl

theorem clickFree_doRefresh {S} (g : Gui S) (st : St S) (h : clickFree st.tr = true) :
    clickFree (doRefresh g st).tr = true :=
  clickFree_snoc h rfl

theorem clickFree_doFocus {S} (g : Gui S) (st : St S) (w : Option Nat)
    (h : clickFree st.tr = true) : clickFree (doFocus g st w).tr = true :=
  clickFree_snoc h rfl

theorem clickFree_doLocate {S} (g : Gui S) (st : St S) (h : clickFree st.tr = true) :
    clickFree (doLocate g st).2.tr = true :=
  clickFree_snoc (clickFree_snoc h rfl) rfl

theorem clickFree_doLaunch {S} (g : Gui S) (st : St S) (h : clickFree st.tr = true) :
    clickFree (doLaunch g st).2.tr = true := by
  unfold doLaunch
  exact clickFree_snoc h rfl

theorem clickFree_updatePos {S} (g : Gui S) :
    ∀ (fuel : Nat) (st : St S), clickFree st.tr = true →
      clickFree (updateWindowPosition g fuel st).2.tr = true := by
  intro fuel
  induction fuel with
  | zero =>
    intro st h
    unfold updateWindowPosition
    split
    · exact h
    · split
      · exact clickFree_doRefresh g st h
      · split
        · exact clickFree_doLocate g (doRefresh g st) (clickFree_doRefresh g st h)
        · exact clickFree_doFocus g _ _
            (clickFree_doLocate g (doRefresh g st) (clickFree_doRefresh g st h))
  | succ n ih =>
    intro st h
    unfold updateWindowPosition
    split
    · exact h
    · split
      · exact clickFree_doRefresh g st h
      · split
        · exact clickFree_doLocate g (doRefresh g st) (clickFree_doRefresh g st h)
        · exact ih _ (clickFree_doFocus g _ _
            (clickFree_doLocate g (doRefresh g st) (clickFree_doRefresh g st h)))

theorem clickFree_openCalcLaunched {S} (g : Gui S) (fuel : Nat) (st2 : St S)
    (h : clickFree st2.tr = true) :
    ∀ r, openCalcLaunched g fuel st2 = some r → clickFree r.2.tr = true := by
  intro r hoc
  have h1 : clickFree (doLocate g st2).2.tr = true := clickFree_doLocate g st2 h
  unfold openCalcLaunched at hoc
  split at hoc
  · rename_i w2 hw2
    split at hoc
    · exact Option.noConfusion hoc
    · rename_i st7 heq
      cases (Option.some.inj hoc).symm
      have hfoc : clickFree (doFocus g (setWid (doLocate g st2).2 (some w2))
          (some w2)).tr = true := clickFree_doFocus g _ _ h1
      have hres := clickFree_updatePos g fuel _ hfoc
      rw [heq] at hres
      exact hres
  · split at hoc
    · exact Option.noConfusion hoc
    · rename_i st7 heq
      cases (Option.some.inj hoc).symm
      have hfoc : clickFree (doFocus g (doLocate g st2).2
          (doLocate g st2).2.c.window_id).tr = true := clickFree_doFocus g _ _ h1
      have hres := clickFree_updatePos g fuel _ hfoc
      rw [heq] at hres
      exact hres

theorem clickFree_openCalculator {S} (g : Gui S) (fuel : Nat) (st : St S)
    (h : clickFree st.tr = true) :
    ∀ r, openCalculator g fuel st = some r → clickFree r.2.tr = true := by
  intro r hoc
  have h1 : clickFree (doLocate g st).2.tr = true := clickFree_doLocate g st h
  unfold openCalculator at hoc
  split at hoc
  · rename_i wid hwid
    split at hoc
    · exact Option.noConfusion hoc
    · rename_i st4 heq
      cases (Option.some.inj hoc).symm
      have hfoc : clickFree (doFocus g (setWid (doLocate g st).2 (some wid))
          (some wid)).tr = true := clickFree_doFocus g _ _ h1
      have hres := clickFree_updatePos g fuel _ hfoc
      rw [heq] at hres
      exact hres
  · have h2 : clickFree (doLaunch g (doLocate g st).2).2.tr = true :=
      clickFree_doLaunch g _ h1
    split at hoc
    · rename_i lwid hlwid
      have hsw : clickFree (setWid (doLaunch g (doLocate g st).2).2 (some lwid)).tr = true := h2
      exact clickFree_openCalcLaunched g fuel _ hsw r hoc
    · cases (Option.some.inj hoc).symm
      exact h2

theorem countLocate_append (a b : List Eff) :
    countLocate (a ++ b) = countLocate a + countLocate b := by
  simp [countLocate, List.filter_append]

/-- Single-re-resolution case of `_update_window_position`: when the origin
query fails and the immediate re-location also fails, the method clears the
handle and returns after exactly one additional `locate()` call, for any
fuel. -/
theorem updatePos_locateFail {S} (g : Gui S) (fuel : Nat) (st : St S) (wid : Nat)
    (hwid : st.c.window_id = some wid)
    (hinfo : g.getWindowInfo (doRefresh g st).s (some wid) = none)
    (hloc : (doLocate g (doRefresh g st)).1 = none) :
    updateWindowPosition g fuel st = (true, setWid (doLocate g (doRefresh g st)).2 none) ∧
    countLocate (setWid (doLocate g (doRefresh g st)).2 none).tr = countLocate st.tr + 1 ∧
    (setWid (doLocate g (doRefresh g st)).2 none).c.window_id = none := by
  refine ⟨?_, ?_, rfl⟩
  · unfold updateWindowPosition
    split
    · rename_i hnone
      rw [hwid] at hnone
      exact Option.noConfusion hnone
    · rename_i wid' hwid'
      rw [hwid] at hwid'
      cases Option.some.inj hwid'
      split
      · rename_i wi hinfo'
        rw [hinfo] at hinfo'
        exact Option.noConfusion hinfo'
      · split
        · rfl
        · rename_i wid2 hwid2
          rw [hloc] at hwid2
          exact Option.noConfusion hwid2
  · have htr : (setWid (doLocate g (doRefresh g st)).2 none).tr =
        ((st.tr ++ [Eff.refreshE]) ++ [Eff.locateE]) ++ [Eff.refreshE] := rfl
    rw [htr, countLocate_append, countLocate_append, countLocate_append]
    rfl

/-- An adversarial backend: the origin query always fails while window
enumeration always offers a `calculator` window, so `_update_window_position`
recurses forever. -/
def advGui : Gui Unit where
  refresh := id
  getWindows := fun _ => [(1, "calculator".toList)]
  getWindowInfo := fun _ _ => none
  focusW := fun s _ => s
  clickAt := fun s _ _ => (true, s)
  launchApp := fun s => (none, s)

/-- Initial controller state for the adversarial run. -/
def advSt : St Unit :=
  { c := { window_id := some 1, window_pos := none }, s := (), tr := [] }

/-- Under the adversarial backend the method never completes and performs one
`locate()` per recursion level: re-resolution attempts are unbounded in the
backend response sequence. -/
theorem updatePos_adversarial : ∀ (n : Nat) (st : St Unit), st.c.window_id = some 1 →
    (updateWindowPosition advGui n st).1 = false ∧
    countLocate (updateWindowPosition advGui n st).2.tr = countLocate st.tr + (n + 1) := by
  intro n
  induction n with
  | zero =>
    intro st h
    unfold updateWindowPosition
    rw [h]
    refine ⟨rfl, ?_⟩
    have htr : (doFocus advGui (setWid (doLocate advGui (doRefresh advGui st)).2 (some 1))
        (some 1)).tr =
        (((st.tr ++ [Eff.refreshE]) ++ [Eff.locateE]) ++ [Eff.refreshE]) ++
          [Eff.focusE (some 1)] := rfl
    show countLocate (doFocus advGui (setWid (doLocate advGui (doRefresh advGui st)).2
        (some 1)) (some 1)).tr = countLocate st.tr + 1
    rw [htr, countLocate_append, countLocate_append, countLocate_append, countLocate_append]
    rfl
  | succ n ih =>
    intro st h
    have hrec := ih (doFocus advGui (setWid (doLocate advGui (doRefresh advGui st)).2
      (some 1)) (some 1)) rfl
    have htr : (doFocus advGui (setWid (doLocate advGui (doRefresh advGui st)).2 (some 1))
        (some 1)).tr =
        (((st.tr ++ [Eff.refreshE]) ++ [Eff.locateE]) ++ [Eff.refreshE]) ++
          [Eff.focusE (some 1)] := rfl
    have hcount : countLocate (doFocus advGui (setWid (doLocate advGui (doRefresh advGui st)).2
        (some 1)) (some 1)).tr = countLocate st.tr + 1 := by
      rw [htr, countLocate_append, countLocate_append, countLocate_append, countLocate_append]
      rfl
    have h2 := hrec.2
    rw [hcount] at h2
    unfold updateWindowPosition
    rw [h]
    refine ⟨hrec.1, ?_⟩
    show countLocate (updateWindowPosition advGui n
      (doFocus advGui (setWid (doLocate advGui (doRefresh advGui st)).2 (some 1))
        (some 1))).2.tr = countLocate st.tr + (n + 1 + 1)
    omega

/-! ## Bounding-box and loop lemmas (claim C8) -/

/-- A resolved node with a malformed bounding box makes `click_button` fail
with the invalid-bbox error, leaving the state as after the position
refresh. -/
theorem clickCore_invalidBbox {S} (g : Gui S) (nodes : Fdom) (fuel : Nat) (btn : String)
    (st st2 : St S) (nid : String) (nd : NodeR) (px py : Int)
    (hfind : findNodeByName btn.toList nodes = some nid)
    (hlook : lookupNode nid nodes = some nd)
    (hupd : updateWindowPosition g fuel st = (true, st2))
    (hpos : st2.c.window_pos = some (px, py))
    (hbb : nd.bbox.length ≠ 4) :
    clickCore g nodes fuel btn st = some (CBRes.fail ErrKind.invalidBbox, st2) := by
  have hb : (nd.bbox.length != 4) = true := by simpa using hbb
  unfold clickCore
  simp only [hfind, hlook, hupd, hpos, hb, if_true]

theorem execButtons_map_fst {S} (g : Gui S) (nodes : Fdom) (fuel : Nat) :
    ∀ (bs : List String) (st : St S) (out : List (String × CBRes)) (st' : St S),
      execButtons g nodes fuel bs st = some (out, st') → out.map Prod.fst = bs := by
  intro bs
  induction bs with
  | nil =>
    intro st out st' h
    unfold execButtons at h
    cases Option.some.inj h
    rfl
  | cons b bs ih =>
    intro st out st' h
    unfold execButtons at h
    cases hclick : clickButton g nodes fuel b st with
    | none =>
      simp only [hclick] at h
      exact Option.noConfusion h
    | some pr =>
      obtain ⟨r, st1⟩ := pr
      simp only [hclick] at h
      cases hrec : execButtons g nodes fuel bs st1 with
      | none =>
        simp only [hrec] at h
        exact Option.noConfusion h
      | some pr2 =>
        obtain ⟨rs, st2⟩ := pr2
        simp only [hrec] at h
        cases Option.some.inj h
        simp only [List.map_cons]
        rw [ih st1 rs _ hrec]

theorem execButtons_append {S} (g : Gui S) (nodes : Fdom) (fuel : Nat) :
    ∀ (bs cs : List String) (st : St S) (out : List (String × CBRes)) (st' : St S),
      execButtons g nodes fuel (bs ++ cs) st = some (out, st') →
      ∃ o1 st1 o2, execButtons g nodes fuel bs st = some (o1, st1) ∧
        execButtons g nodes fuel cs st1 = some (o2, st') ∧ out = o1 ++ o2 := by
  intro bs
  induction bs with
  | nil =>
    intro cs st out st' h
    exact ⟨[], st, out, rfl, by simpa using h, rfl⟩
  | cons b bs ih =>
    intro cs st out st' h
    rw [List.cons_append] at h
    unfold execButtons at h
    cases hclick : clickButton g nodes fuel b st with
    | none =>
      simp only [hclick] at h
      exact Option.noConfusion h
    | some pr =>
      obtain ⟨r, st1⟩ := pr
      simp only [hclick] at h
      cases hrec : execButtons g nodes fuel (bs ++ cs) st1 with
      | none =>
        simp only [hrec] at h
        exact Option.noConfusion h
      | some pr2 =>
        obtain ⟨rs, st2⟩ := pr2
        simp only [hrec] at h
        cases Option.some.inj h
        obtain ⟨o1, st1', o2, h1, h2, rfl⟩ := ih cs st1 rs _ hrec
        refine ⟨(b, r) :: o1, st1', o2, ?_, h2, rfl⟩
        unfold execButtons
        simp only [hclick, h1]

/-! ## No-click-on-failure lemmas (claim C9) -/

theorem performClick_res {S} (g : Gui S) (nid : String) (ax ay : Int) (st : St S)
    (r : CBRes × St S) (h : performClick g nid ax ay st = some r) :
    r.1 = CBRes.succ nid ∨ r.1 = CBRes.fail ErrKind.clickFailE := by
  unfold performClick at h
  split at h
  rename_i ok st' heq
  split at h
  · cases Option.some.inj h
    exact Or.inl rfl
  · cases Option.some.inj h
    exact Or.inr rfl

theorem retargetClick_res {S} (g : Gui S) (fuel : Nat) (nid : String) (cx cy : Int)
    (st5 : St S) (r : CBRes × St S) (h : retargetClick g fuel nid cx cy st5 = some r) :
    r.1 = CBRes.succ nid ∨ r.1 = CBRes.fail ErrKind.clickFailE ∨
      r.1 = CBRes.fail ErrKind.excE := by
  unfold retargetClick at h
  split at h
  · exact Option.noConfusion h
  · split at h
    · cases Option.some.inj h
      exact Or.inr (Or.inr rfl)
    · rcases performClick_res _ _ _ _ _ _ h with h' | h'
      · exact Or.inl h'
      · exact Or.inr (Or.inl h')

theorem revalidate_res {S} (g : Gui S) (fuel : Nat) (nid : String) (cx cy ax ay : Int)
    (st3 : St S) (r : CBRes × St S)
    (h : revalidateAndClick g fuel nid cx cy ax ay st3 = some r) :
    r.1 = CBRes.succ nid ∨ r.1 = CBRes.fail ErrKind.clickFailE ∨
      r.1 = CBRes.fail ErrKind.excE := by
  unfold revalidateAndClick at h
  split at h
  · split at h
    · split at h
      · split at h
        · exact retargetClick_res _ _ _ _ _ _ _ h
        · rcases performClick_res _ _ _ _ _ _ h with h' | h'
          · exact Or.inl h'
          · exact Or.inr (Or.inl h')
      · rcases performClick_res _ _ _ _ _ _ h with h' | h'
        · exact Or.inl h'
        · exact Or.inr (Or.inl h')
    · rcases performClick_res _ _ _ _ _ _ h with h' | h'
      · exact Or.inl h'
      · exact Or.inr (Or.inl h')
  · rcases performClick_res _ _ _ _ _ _ h with h' | h'
    · exact Or.inl h'
    · exact Or.inr (Or.inl h')

/-- The four pre-click failures of `click_button` leave the call's trace free
of click effects: the click primitive is never invoked on those paths. -/
theorem clickCore_fail_no_click {S} (g : Gui S) (nodes : Fdom) (fuel : Nat) (btn : String)
    (st st' : St S) (e : ErrKind)
    (hfree : clickFree st.tr = true)
    (h : clickCore g nodes fuel btn st = some (CBRes.fail e, st'))
    (he : e = ErrKind.btnNotFound ∨ e = ErrKind.nodeDataMissing ∨
      e = ErrKind.noWindowPos ∨ e = ErrKind.invalidBbox) :
    clickFree st'.tr = true := by
  unfold clickCore at h
  split at h
  · cases Option.some.inj h
    exact hfree
  · split at h
    · cases Option.some.inj h
      exact hfree
    · split at h
      · exact Option.noConfusion h
      · rename_i st2 hupd
        have hfree2 : clickFree st2.tr = true := by
          have := clickFree_updatePos g fuel st hfree
          rw [hupd] at this
          exact this
        split at h
        · cases Option.some.inj h
          exact hfree2
        · split at h
          · cases Option.some.inj h
            exact hfree2
          · exfalso
            rcases revalidate_res _ _ _ _ _ _ _ _ _ h with h' | h' | h'
            · exact CBRes.noConfusion h'
            · rcases he with rfl | rfl | rfl | rfl <;>
                exact absurd (CBRes.fail.inj h') (by decide)
            · rcases he with rfl | rfl | rfl | rfl <;>
                exact absurd (CBRes.fail.inj h') (by decide)

/-! ## Instruction-shape lemmas (claims C5, C7)

`andShape ow A B eL eR` is the instruction `<ow> <A> [extras] and <B> [extras]`
with `A`, `B` digit runs and `eL`, `eR` additional space-separated digit runs;
`mulShape A B` is `multiply <A> by <B>`. -/

/-- Space-prefixed concatenation of extra digit runs. -/
def SJ (es : List (List Char)) : List Char := (es.map (fun e => ' ' :: e)).flatten

/-- All characters are decimal digits. -/
def allDigits (l : List Char) : Prop := ∀ c ∈ l, c ∈ digitChars

/-- A list of nonempty digit runs. -/
def goodRuns (es : List (List Char)) : Prop := ∀ e ∈ es, e ≠ [] ∧ allDigits e

/-- The `<ow> <A> [extras] and <B> [extras]` instruction. -/
def andShape (ow A B : List Char) (eL eR : List (List Char)) : List Char :=
  ow ++ ' ' :: (A ++ (SJ eL ++ (' ' :: 'a' :: 'n' :: 'd' :: ' ' :: (B ++ SJ eR))))

/-- The `multiply <A> by <B>` instruction. -/
def mulShape (A B : List Char) : List Char :=
  "multiply".toList ++ ' ' :: (A ++ (' ' :: 'b' :: 'y' :: ' ' :: B))

theorem mem_digitChars_isDigitC {c : Char} (h : c ∈ digitChars) : isDigitC c = true := by
  simpa [isDigitC] using List.elem_iff.mpr h

theorem SJ_chars {es : List (List Char)} (hes : goodRuns es) :
    ∀ c ∈ SJ es, c = ' ' ∨ c ∈ digitChars := by
  intro c hc
  simp only [SJ, List.mem_flatten, List.mem_map] at hc
  obtain ⟨l, ⟨e, he, rfl⟩, hcl⟩ := hc
  rcases List.mem_cons.mp hcl with rfl | hcl
  · exact Or.inl rfl
  · exact Or.inr ((hes e he).2 c hcl)

theorem SJ_head_cons (es : List (List Char)) (c : Char) (r : List Char) :
    (SJ es ++ c :: r).head? = some ' ' ∨ (SJ es ++ c :: r).head? = some c := by
  cases es with
  | nil => exact Or.inr rfl
  | cons e es' => exact Or.inl rfl

theorem pairsL_cons_elim {q : Char × Char} {c : Char} {t : List Char}
    (h : q ∈ pairsL (c :: t)) :
    (∃ b, t.head? = some b ∧ q = (c, b)) ∨ q ∈ pairsL t := by
  cases t with
  | nil => simp [pairsL] at h
  | cons b t' =>
    rcases List.mem_cons.mp h with rfl | h
    · exact Or.inl ⟨b, rfl, rfl⟩
    · exact Or.inr h

/-- `splitAndGo` never returns an empty part list. -/
theorem splitAndGo_ne_nil : ∀ (pw : Bool) (s : List Char), splitAndGo pw s ≠ [] := by
  intro pw s
  induction s generalizing pw with
  | nil => simp [splitAndGo]
  | cons c t ih =>
    unfold splitAndGo
    split
    · simp
    · split
      · simp
      · split <;> simp
    · split <;> simp

/-- The non-`and` step equation for `splitAndGo`. -/
theorem splitAndGo_cons_eq (pw : Bool) (c : Char) (t : List Char)
    (h : pw = true ∨ c ≠ 'a' ∨ t.head? ≠ some 'n') :
    splitAndGo pw (c :: t) =
      (match splitAndGo (isWordChar c) t with
       | [] => [[c]]
       | p :: ps => (c :: p) :: ps) := by
  conv_lhs => unfold splitAndGo
  split
  · rename_i heq
    exact absurd heq (by simp)
  · rename_i r heq
    exfalso
    obtain ⟨hc, ht⟩ := List.cons.inj heq
    rcases h with h | h | h
    · exact absurd h (by simp)
    · exact h hc
    · exact h (by rw [ht]; rfl)
  · rename_i c2 t2 hno heq
    obtain ⟨rfl, rfl⟩ : c = c2 ∧ t = t2 := List.cons.inj heq
    rfl

/-- Word-character state after scanning `x`. -/
def pwAfter : List Char → Bool → Bool
  | [], pw => pw
  | c :: t, _ => pwAfter t (isWordChar c)

/-- Scanning a segment that cannot start a word-bounded `and` match: it is
consumed verbatim. -/
theorem splitAndGo_skip : ∀ (x : List Char) (pw : Bool) (rest : List Char),
    'n' ∉ x → x.getLast? ≠ some 'a' →
    splitAndGo pw (x ++ rest) =
      (match splitAndGo (pwAfter x pw) rest with
       | [] => [x]
       | p :: ps => (x ++ p) :: ps) := by
  intro x
  induction x with
  | nil =>
    intro pw rest _ _
    cases hrest : splitAndGo pw rest with
    | nil => exact absurd hrest (splitAndGo_ne_nil pw rest)
    | cons p ps => simp [pwAfter, hrest]
  | cons c x' ih =>
    intro pw rest hn hlast
    have hn' : 'n' ∉ x' := fun h => hn (List.mem_cons_of_mem _ h)
    have hlast' : x'.getLast? ≠ some 'a' := by
      intro h
      cases x' with
      | nil => simp at h
      | cons b t => exact hlast (by simpa [List.getLast?_cons_cons] using h)
    have hcond : pw = true ∨ c ≠ 'a' ∨ (x' ++ rest).head? ≠ some 'n' := by
      by_cases hc : c = 'a'
      · subst hc
        cases x' with
        | nil => exact absurd rfl hlast
        | cons b t =>
          right; right
          have hb : b ≠ 'n' := fun h => hn (h ▸ List.mem_cons_of_mem _ (List.mem_cons_self _ _))
          simp [hb]
      · exact Or.inr (Or.inl hc)
    rw [List.cons_append, splitAndGo_cons_eq pw c (x' ++ rest) hcond,
      ih (isWordChar c) rest hn' hlast']
    have hpa : pwAfter (c :: x') pw = pwAfter x' (isWordChar c) := rfl
    rw [hpa]
    cases hrec : splitAndGo (pwAfter x' (isWordChar c)) rest with
    | nil => exact absurd hrec (splitAndGo_ne_nil _ rest)
    | cons p ps => simp

/-- A segment with no `a` at all is never split. -/
theorem splitAndGo_noA : ∀ (y : List Char) (pw : Bool), 'a' ∉ y →
    splitAndGo pw y = [y] := by
  intro y
  induction y with
  | nil => intro pw _; cases pw <;> rfl
  | cons c t ih =>
    intro pw ha
    have hca : c ≠ 'a' := fun h => ha (h ▸ List.mem_cons_self _ _)
    have ht : 'a' ∉ t := fun h => ha (List.mem_cons_of_mem _ h)
    rw [splitAndGo_cons_eq pw c t (Or.inr (Or.inl hca)), ih (isWordChar c) ht]

theorem hasPrefixL_append : ∀ (n r : List Char), hasPrefixL n (n ++ r) = true := by
  intro n r
  induction n with
  | nil => rfl
  | cons a t ih => simpa [hasPrefixL] using ih

theorem containsSub_eq_false_of_not_mem {c : Char} {n s : List Char}
    (hcn : c ∈ n) (hcs : c ∉ s) : containsSub n s = false := by
  cases h : containsSub n s with
  | false => rfl
  | true => exact absurd (containsSub_mem h c hcn) hcs

theorem headNotP_reverse {p : Char → Bool} {s : List Char} {c : Char}
    (h : s.getLast? = some c) (hc : p c = false) : headNotP p s.reverse = true := by
  cases hrev : s.reverse with
  | nil => rfl
  | cons b t =>
    have hb : s.getLast? = some b := by
      rw [← List.head?_reverse, hrev]; rfl
    have : b = c := by
      rw [hb] at h
      exact Option.some.inj h
    simp [headNotP, this, hc]

theorem getLast?_exists_mem {l : List Char} (h : l ≠ []) :
    ∃ c, l.getLast? = some c ∧ c ∈ l :=
  ⟨l.getLast h, List.getLast?_eq_getLast l h, List.getLast_mem h⟩

theorem SJ_cons (e : List Char) (es : List (List Char)) :
    SJ (e :: es) = ' ' :: (e ++ SJ es) := by
  simp [SJ]

theorem SJ_ne_nil (e : List Char) (es : List (List Char)) : SJ (e :: es) ≠ [] := by
  simp [SJ_cons]

theorem goodRuns_tail {e : List Char} {es : List (List Char)}
    (h : goodRuns (e :: es)) : goodRuns es :=
  fun x hx => h x (List.mem_cons_of_mem _ hx)

theorem goodRuns_head {e : List Char} {es : List (List Char)}
    (h : goodRuns (e :: es)) : e ≠ [] ∧ allDigits e :=
  h e (List.mem_cons_self _ _)

/-- The runs of `SJ es ++ r` under a predicate true on digits and false on
space: the runs are exactly the elements of `es` followed by the runs of `r`. -/
theorem runsBy_SJ (p : Char → Bool) (hsp : p ' ' = false) :
    ∀ (es : List (List Char)), goodRuns es →
      (∀ c ∈ digitChars, p c = true) →
      ∀ r : List Char, headNotP p r = true →
      runsBy p (SJ es ++ r) = es ++ runsBy p r := by
  intro es
  induction es with
  | nil => intro _ _ r _; simp [SJ]
  | cons e es' ih =>
    intro hes hdig r hr
    have he := goodRuns_head hes
    have hassoc : SJ (e :: es') ++ r = [' '] ++ (e ++ (SJ es' ++ r)) := by
      simp [SJ_cons]
    rw [hassoc, runsBy_skip p [' '] (by intro c hc; rcases List.mem_singleton.mp hc with rfl; exact hsp)]
    have htail : headNotP p (SJ es' ++ r) = true := by
      cases es' with
      | nil => simpa [SJ] using hr
      | cons e2 t => simp [SJ_cons, headNotP, hsp]
    rw [runsBy_chunk p he.1 (fun c hc => hdig c (he.2 c hc)) htail,
      ih (goodRuns_tail hes) hdig r hr]
    rfl

/-- Adjacent pairs inside `SJ es ++ r`: each has a space or digit first
component, unless it lies inside `r`. -/
theorem SJ_pairs (es : List (List Char)) (hes : goodRuns es) :
    ∀ (r : List Char), (r = [] ∨ r.head? = some ' ') →
    ∀ q ∈ pairsL (SJ es ++ r), q ∈ pairsL r ∨ q.1 = ' ' ∨ q.1 ∈ digitChars := by
  induction es with
  | nil => intro r _ q hq; simpa [SJ] using Or.inl hq
  | cons e es' ih =>
    intro r hr q hq
    rw [SJ_cons, List.cons_append] at hq
    rcases pairsL_cons_elim hq with ⟨b, _, rfl⟩ | hq
    · exact Or.inr (Or.inl rfl)
    · rw [List.append_assoc] at hq
      rcases pairsL_append_sub e (SJ es' ++ r) q hq with h | h | h
      · exact Or.inr (Or.inr ((goodRuns_head hes).2 q.1 (pairsL_mem h).1))
      · exact ih (goodRuns_tail hes) r hr q h
      · refine Or.inr (Or.inr ((goodRuns_head hes).2 q.1 ?_))
        exact List.mem_of_mem_getLast? (by rw [h.1]; rfl)

/-- The last character of `SJ es` for a nonempty list of digit runs is a
digit. -/
theorem SJ_getLast : ∀ (es : List (List Char)), goodRuns es → es ≠ [] →
    ∃ c, (SJ es).getLast? = some c ∧ c ∈ digitChars := by
  intro es
  induction es with
  | nil => intro _ h; exact absurd rfl h
  | cons e es' ih =>
    intro hes _
    have he := goodRuns_head hes
    cases hcase : es' with
    | nil =>
      obtain ⟨c, hc1, hc2⟩ := getLast?_exists_mem he.1
      refine ⟨c, ?_, he.2 c hc2⟩
      rw [SJ_cons]
      show ((' ' :: e) ++ SJ ([] : List (List Char))).getLast? = some c
      rw [show SJ ([] : List (List Char)) = [] from rfl, List.append_nil]
      show ([' '] ++ e).getLast? = some c
      rw [List.getLast?_append_of_ne_nil [' '] he.1]
      exact hc1
    | cons e2 t =>
      obtain ⟨c, hc1, hc2⟩ := ih (goodRuns_tail hes) (by rw [hcase]; simp)
      rw [hcase] at hc1
      refine ⟨c, ?_, hc2⟩
      rw [SJ_cons]
      show ((' ' :: e) ++ SJ (e2 :: t)).getLast? = some c
      rw [List.getLast?_append_of_ne_nil (' ' :: e) (SJ_ne_nil e2 t)]
      exact hc1

/-- Every number name in the parser's table starts with a non-digit
character. -/
theorem numberMapL_head : ∀ wd ∈ numberMapL, headNotP isDigitC wd.1 = true := by decide

/-- A nonempty digit run is never a number name. -/
theorem digitRun_ne_numWord {r : List Char} (h0 : r ≠ []) (hd : allDigits r) :
    ∀ wd ∈ numberMapL, r ≠ wd.1 := by
  intro wd hwd heq
  cases r with
  | nil => exact h0 rfl
  | cons c t =>
    have h1 := numberMapL_head wd hwd
    rw [← heq] at h1
    simp only [headNotP, Bool.not_eq_true'] at h1
    rw [mem_digitChars_isDigitC (hd c (List.mem_cons_self _ _))] at h1
    exact Bool.noConfusion h1

theorem pwAfter_concat : ∀ (x : List Char) (c : Char) (pw : Bool),
    pwAfter (x ++ [c]) pw = isWordChar c := by
  intro x
  induction x with
  | nil => intro c pw; rfl
  | cons b t ih => intro c pw; exact ih c (isWordChar b)

/-- The `and`-match step of `splitAndGo` at a word boundary. -/
theorem splitAndGo_and_step (rest : List Char) (h : headNonWord rest = true) :
    splitAndGo false ('a' :: 'n' :: 'd' :: rest) = [] :: splitAndGo true rest := by
  conv_lhs => unfold splitAndGo
  split
  · rename_i heq
    exact absurd heq (by simp)
  · rename_i rv hb heq
    have hr : rest = rv := (List.cons.inj (List.cons.inj (List.cons.inj heq).2).2).2
    subst hr
    simp [h]
  · rename_i c2 t2 heq hno
    exfalso
    obtain ⟨hc, ht⟩ := List.cons.inj heq
    exact hno rest rfl hc.symm ht.symm

theorem bin_not_unary : ∀ g ∈ binGlyphs, g ∉ unaryTokens := by decide

theorem bin_ne_eq : ∀ g ∈ binGlyphs, g ≠ "=" := by decide

/-- The part of the `and`-shape instruction left of the word `and`,
including the trailing space. -/
def andLeft (ow A : List Char) (eL : List (List Char)) : List Char :=
  ow ++ ' ' :: (A ++ (SJ eL ++ [' ']))

theorem andShape_decomp (ow A B : List Char) (eL eR : List (List Char)) :
    andShape ow A B eL eR =
      andLeft ow A eL ++ ('a' :: 'n' :: 'd' :: ' ' :: (B ++ SJ eR)) := by
  simp [andShape, andLeft]

theorem andLeft_concat (ow A : List Char) (eL : List (List Char)) :
    andLeft ow A eL = (ow ++ ' ' :: (A ++ SJ eL)) ++ [' '] := by
  simp [andLeft]

theorem andShape_chars {ow A B : List Char} {eL eR : List (List Char)}
    (hAd : allDigits A) (hBd : allDigits B) (heL : goodRuns eL) (heR : goodRuns eR) :
    ∀ c ∈ andShape ow A B eL eR,
      c ∈ ow ∨ c = ' ' ∨ c ∈ digitChars ∨ c ∈ (['a', 'n', 'd'] : List Char) := by
  intro c hc
  simp only [andShape, List.mem_append, List.mem_cons] at hc
  rcases hc with h | h | h | h | h | h | h | h | h | h | h
  · exact Or.inl h
  · exact Or.inr (Or.inl h)
  · exact Or.inr (Or.inr (Or.inl (hAd c h)))
  · rcases SJ_chars heL c h with h | h
    · exact Or.inr (Or.inl h)
    · exact Or.inr (Or.inr (Or.inl h))
  · exact Or.inr (Or.inl h)
  · exact Or.inr (Or.inr (Or.inr (by rw [h]; decide)))
  · exact Or.inr (Or.inr (Or.inr (by rw [h]; decide)))
  · exact Or.inr (Or.inr (Or.inr (by rw [h]; decide)))
  · exact Or.inr (Or.inl h)
  · exact Or.inr (Or.inr (Or.inl (hBd c h)))
  · rcases SJ_chars heR c h with h | h
    · exact Or.inr (Or.inl h)
    · exact Or.inr (Or.inr (Or.inl h))

theorem andLeft_chars {ow A : List Char} {eL : List (List Char)}
    (hAd : allDigits A) (heL : goodRuns eL) :
    ∀ c ∈ andLeft ow A eL, c ∈ ow ∨ c = ' ' ∨ c ∈ digitChars := by
  intro c hc
  simp only [andLeft, List.mem_append, List.mem_cons, List.not_mem_nil, or_false] at hc
  rcases hc with h | h | h | h | h
  · exact Or.inl h
  · exact Or.inr (Or.inl h)
  · exact Or.inr (Or.inr (hAd c h))
  · rcases SJ_chars heL c h with h | h
    · exact Or.inr (Or.inl h)
    · exact Or.inr (Or.inr h)
  · exact Or.inr (Or.inl h)

theorem headNotP_space (p : Char → Bool) (hp : p ' ' = false) (z : List Char) :
    headNotP p (' ' :: z) = true := by
  simp [headNotP, hp]

theorem headNotP_SJ_append (p : Char → Bool) (hp : p ' ' = false)
    (es : List (List Char)) (r : List Char) (hr : headNotP p r = true) :
    headNotP p (SJ es ++ r) = true := by
  cases es with
  | nil => simpa [SJ] using hr
  | cons e t =>
    rw [SJ_cons, List.cons_append]
    exact headNotP_space p hp _

theorem runsBy_space_nil (p : Char → Bool) (hp : p ' ' = false) :
    runsBy p [' '] = [] := by
  have := runsBy_skip p [' ']
    (by intro c hc; rcases List.mem_singleton.mp hc with rfl; exact hp) []
  simpa using this

/-- The digit runs of the left `and`-part: the main operand `A` followed by
the extra runs `eL`. -/
theorem digitRuns_andLeft {ow A : List Char} {eL : List (List Char)}
    (howd : ∀ c ∈ ow, isDigitC c = false) (hA : A ≠ []) (hAd : allDigits A)
    (heL : goodRuns eL) :
    digitRuns (andLeft ow A eL) = A :: eL := by
  have hsp : isDigitC ' ' = false := by decide
  have h1 : andLeft ow A eL = ow ++ ([' '] ++ (A ++ (SJ eL ++ [' ']))) := by
    simp [andLeft]
  rw [show digitRuns (andLeft ow A eL) = runsBy isDigitC (andLeft ow A eL) from rfl, h1,
    runsBy_skip isDigitC ow howd,
    runsBy_skip isDigitC [' ']
      (by intro c hc; rcases List.mem_singleton.mp hc with rfl; exact hsp),
    runsBy_chunk isDigitC hA (fun c hc => mem_digitChars_isDigitC (hAd c hc))
      (headNotP_SJ_append isDigitC hsp eL [' '] (headNotP_space isDigitC hsp [])),
    runsBy_SJ isDigitC hsp eL heL (fun c hc => mem_digitChars_isDigitC hc) [' ']
      (headNotP_space isDigitC hsp []),
    runsBy_space_nil isDigitC hsp]
  simp

/-- The digit runs of the right `and`-part: the main operand `B` followed by
the extra runs `eR`. -/
theorem digitRuns_andRight {B : List Char} {eR : List (List Char)}
    (hB : B ≠ []) (hBd : allDigits B) (heR : goodRuns eR) :
    digitRuns (' ' :: (B ++ SJ eR)) = B :: eR := by
  have hsp : isDigitC ' ' = false := by decide
  have h1 : (' ' :: (B ++ SJ eR)) = [' '] ++ (B ++ (SJ eR ++ [])) := by simp
  rw [show digitRuns (' ' :: (B ++ SJ eR)) = runsBy isDigitC (' ' :: (B ++ SJ eR)) from rfl,
    h1,
    runsBy_skip isDigitC [' ']
      (by intro c hc; rcases List.mem_singleton.mp hc with rfl; exact hsp),
    runsBy_chunk isDigitC hB (fun c hc => mem_digitChars_isDigitC (hBd c hc))
      (headNotP_SJ_append isDigitC hsp eR [] rfl),
    runsBy_SJ isDigitC hsp eR heR (fun c hc => mem_digitChars_isDigitC hc) [] rfl]
  simp [runsBy, runsByGo]

/-- Adjacent pairs of the `and`-shape instruction: each lies inside the
operator word, inside the word `and`, or touches a space or a digit. -/
theorem andShape_pairs {ow A B : List Char} {eL eR : List (List Char)}
    (hAd : allDigits A) (hBd : allDigits B) (heL : goodRuns eL) (heR : goodRuns eR) :
    ∀ q ∈ pairsL (andShape ow A B eL eR),
      q ∈ pairsL ow ∨ q.1 = ' ' ∨ q.2 = ' ' ∨ q.1 ∈ digitChars ∨
        q ∈ ([('a', 'n'), ('n', 'd')] : List (Char × Char)) := by
  intro q hq
  have hBR : ∀ q2 : Char × Char, q2 ∈ pairsL (B ++ SJ eR) →
      q2.1 = ' ' ∨ q2.1 ∈ digitChars := by
    intro q2 hq2
    rcases pairsL_append_sub B (SJ eR) q2 hq2 with h | h | h
    · exact Or.inr (hBd q2.1 (pairsL_mem h).1)
    · rcases SJ_pairs eR heR [] (Or.inl rfl) q2 (by simpa using h) with h | h | h
      · simp [pairsL] at h
      · exact Or.inl h
      · exact Or.inr h
    · exact Or.inr (hBd q2.1 (List.mem_of_mem_getLast? (by rw [h.1]; rfl)))
  rcases pairsL_append_sub ow _ q hq with h | h | h
  · exact Or.inl h
  · rcases pairsL_cons_elim h with ⟨b, _, rfl⟩ | h
    · exact Or.inr (Or.inl rfl)
    · rcases pairsL_append_sub A _ q h with h | h | h
      · exact Or.inr (Or.inr (Or.inr (Or.inl (hAd q.1 (pairsL_mem h).1))))
      · rcases SJ_pairs eL heL (' ' :: 'a' :: 'n' :: 'd' :: ' ' :: (B ++ SJ eR))
            (Or.inr rfl) q h with h | h | h
        · rcases pairsL_cons_elim h with ⟨b, _, rfl⟩ | h
          · exact Or.inr (Or.inl rfl)
          · rcases pairsL_cons_elim h with ⟨b, hb, rfl⟩ | h
            · have : b = 'n' := Option.some.inj hb.symm
              rw [this]
              exact Or.inr (Or.inr (Or.inr (Or.inr (by decide))))
            · rcases pairsL_cons_elim h with ⟨b, hb, rfl⟩ | h
              · have : b = 'd' := Option.some.inj hb.symm
                rw [this]
                exact Or.inr (Or.inr (Or.inr (Or.inr (by decide))))
              · rcases pairsL_cons_elim h with ⟨b, hb, rfl⟩ | h
                · have : b = ' ' := Option.some.inj hb.symm
                  rw [this]
                  exact Or.inr (Or.inr (Or.inl rfl))
                · rcases pairsL_cons_elim h with ⟨b, _, rfl⟩ | h
                  · exact Or.inr (Or.inl rfl)
                  · rcases hBR q h with h | h
                    · exact Or.inr (Or.inl h)
                    · exact Or.inr (Or.inr (Or.inr (Or.inl h)))
        · exact Or.inr (Or.inl h)
        · exact Or.inr (Or.inr (Or.inr (Or.inl h)))
      · refine Or.inr (Or.inr (Or.inr (Or.inl (hAd q.1 ?_))))
        exact List.mem_of_mem_getLast? (by rw [h.1]; rfl)
  · exact Or.inr (Or.inr (Or.inl (Option.some.inj h.2).symm))

/-- `re.split(r'\band\b')` on the `and`-shape instruction yields exactly the
left part and the right part. -/
theorem splitAnd_andShape {ow A B : List Char} {eL eR : List (List Char)}
    (hown : 'n' ∉ ow) (hAd : allDigits A) (hBd : allDigits B)
    (heL : goodRuns eL) (heR : goodRuns eR) :
    splitAnd (andShape ow A B eL eR) =
      [andLeft ow A eL, ' ' :: (B ++ SJ eR)] := by
  have hnx : 'n' ∉ andLeft ow A eL := by
    intro h
    rcases andLeft_chars hAd heL 'n' h with h | h | h
    · exact hown h
    · exact absurd h (by decide)
    · exact absurd h (by decide)
  have hlx : (andLeft ow A eL).getLast? ≠ some 'a' := by
    rw [andLeft_concat, List.getLast?_concat]
    decide
  have hax : 'a' ∉ B ++ SJ eR := by
    intro h
    rcases List.mem_append.mp h with h | h
    · exact absurd (hBd 'a' h) (by decide)
    · rcases SJ_chars heR 'a' h with h | h
      · exact absurd h (by decide)
      · exact absurd h (by decide)
  rw [show splitAnd (andShape ow A B eL eR) =
      splitAndGo false (andShape ow A B eL eR) from rfl,
    andShape_decomp,
    splitAndGo_skip (andLeft ow A eL) false ('a' :: 'n' :: 'd' :: ' ' :: (B ++ SJ eR))
      hnx hlx]
  have hpw : pwAfter (andLeft ow A eL) false = false := by
    rw [andLeft_concat, pwAfter_concat]
    decide
  rw [hpw, splitAndGo_and_step (' ' :: (B ++ SJ eR)) rfl,
    splitAndGo_cons_eq true ' ' (B ++ SJ eR) (Or.inl rfl),
    show isWordChar ' ' = false from by decide,
    splitAndGo_noA (B ++ SJ eR) false hax]
  simp

/-- The maximal word runs of the `and`-shape instruction. -/
theorem wordRuns_andShape {ow A B : List Char} {eL eR : List (List Char)}
    (how0 : ow ≠ []) (howw : ∀ c ∈ ow, isWordChar c = true)
    (hA : A ≠ []) (hAd : allDigits A) (hB : B ≠ []) (hBd : allDigits B)
    (heL : goodRuns eL) (heR : goodRuns eR) :
    wordRuns (andShape ow A B eL eR) =
      ow :: A :: (eL ++ (['a', 'n', 'd'] :: B :: eR)) := by
  have hsp : isWordChar ' ' = false := by decide
  have hskip1 : ∀ c ∈ ([' '] : List Char), isWordChar c = false := by
    intro c hc; rcases List.mem_singleton.mp hc with rfl; exact hsp
  have hdigw : ∀ c ∈ digitChars, isWordChar c = true := isWordChar_digit
  have h3ne : (['a', 'n', 'd'] : List Char) ≠ [] := by decide
  have h3w : ∀ c ∈ (['a', 'n', 'd'] : List Char), isWordChar c = true := by decide
  have hh1 : headNotP isWordChar
      ([' '] ++ (A ++ (SJ eL ++ ([' '] ++ (['a', 'n', 'd'] ++
        ([' '] ++ (B ++ (SJ eR ++ [])))))))) = true :=
    headNotP_space isWordChar hsp _
  have hh2 : headNotP isWordChar
      (SJ eL ++ ([' '] ++ (['a', 'n', 'd'] ++ ([' '] ++ (B ++ (SJ eR ++ [])))))) = true :=
    headNotP_SJ_append isWordChar hsp eL _ (headNotP_space isWordChar hsp _)
  have hh3 : headNotP isWordChar
      ([' '] ++ (['a', 'n', 'd'] ++ ([' '] ++ (B ++ (SJ eR ++ []))))) = true :=
    headNotP_space isWordChar hsp _
  have hh4 : headNotP isWordChar ([' '] ++ (B ++ (SJ eR ++ []))) = true :=
    headNotP_space isWordChar hsp _
  have hh5 : headNotP isWordChar (SJ eR ++ []) = true :=
    headNotP_SJ_append isWordChar hsp eR [] rfl
  have h1 : andShape ow A B eL eR =
      ow ++ ([' '] ++ (A ++ (SJ eL ++
        ([' '] ++ (['a', 'n', 'd'] ++ ([' '] ++ (B ++ (SJ eR ++ [])))))))) := by
    simp [andShape]
  rw [show wordRuns (andShape ow A B eL eR) =
      runsBy isWordChar (andShape ow A B eL eR) from rfl, h1,
    runsBy_chunk isWordChar how0 howw hh1,
    runsBy_skip isWordChar [' '] hskip1,
    runsBy_chunk isWordChar hA (fun c hc => hdigw c (hAd c hc)) hh2,
    runsBy_SJ isWordChar hsp eL heL hdigw _ hh3,
    runsBy_skip isWordChar [' '] hskip1,
    runsBy_chunk isWordChar h3ne h3w hh4,
    runsBy_skip isWordChar [' '] hskip1,
    runsBy_chunk isWordChar hB (fun c hc => hdigw c (hBd c hc)) hh5,
    runsBy_SJ isWordChar hsp eR heR hdigw [] rfl]
  simp [runsBy, runsByGo]

theorem andShape_not_contains {ow A B : List Char} {eL eR : List (List Char)}
    {c : Char} {n : List Char}
    (hAd : allDigits A) (hBd : allDigits B) (heL : goodRuns eL) (heR : goodRuns eR)
    (hcn : c ∈ n) (h1 : c ∉ ow) (h2 : c ≠ ' ') (h3 : c ∉ digitChars)
    (h4 : c ∉ (['a', 'n', 'd'] : List Char)) :
    containsSub n (andShape ow A B eL eR) = false := by
  apply containsSub_eq_false_of_not_mem hcn
  intro hc
  rcases andShape_chars hAd hBd heL heR c hc with h | h | h | h
  exacts [h1 h, h2 h, h3 h, h4 h]

/-- When the operator word has no adjacent `ad` pair, the `and`-shape
instruction does not contain the substring `add`. -/
theorem andShape_not_add {ow A B : List Char} {eL eR : List (List Char)}
    (hAd : allDigits A) (hBd : allDigits B) (heL : goodRuns eL) (heR : goodRuns eR)
    (hpq : ('a', 'd') ∉ pairsL ow) :
    containsSub "add".toList (andShape ow A B eL eR) = false := by
  cases h : containsSub "add".toList (andShape ow A B eL eR) with
  | false => rfl
  | true =>
    exfalso
    have hq : ('a', 'd') ∈ pairsL (andShape ow A B eL eR) := contains_pair2 h
    rcases andShape_pairs hAd hBd heL heR _ hq with h' | h' | h' | h' | h'
    exacts [hpq h', absurd h' (by decide), absurd h' (by decide),
      absurd h' (by decide), absurd h' (by decide)]

/-- The last character of the `and`-shape's tail `B ++ SJ eR` is a digit. -/
theorem andTail_getLast {B : List Char} {eR : List (List Char)}
    (hB : B ≠ []) (hBd : allDigits B) (heR : goodRuns eR) :
    ∃ c, (B ++ SJ eR).getLast? = some c ∧ c ∈ digitChars := by
  cases hcase : eR with
  | nil =>
    obtain ⟨c, hc1, hc2⟩ := getLast?_exists_mem hB
    refine ⟨c, ?_, hBd c hc2⟩
    rw [show SJ ([] : List (List Char)) = [] from rfl, List.append_nil]
    exact hc1
  | cons e t =>
    obtain ⟨c, hc1, hc2⟩ := SJ_getLast eR heR (by rw [hcase]; simp)
    rw [hcase] at hc1
    refine ⟨c, ?_, hc2⟩
    rw [List.getLast?_append_of_ne_nil B (SJ_ne_nil e t)]
    exact hc1

/-- `parse` on the `and`-shape instruction, given the operator-word facts and
the already-determined operator glyph. -/
theorem parseL_andShape {ow : List Char} {g : String} {A B : List Char}
    {eL eR : List (List Char)}
    (how0 : ow ≠ [])
    (howc : ∀ c ∈ ow,
      lowerC c = c ∧ isSpaceC c = false ∧ isWordChar c = true ∧ isDigitC c = false)
    (hown : 'n' ∉ ow) (howh : 'h' ∉ ow)
    (hownum : ∀ wd ∈ numberMapL, ow ≠ wd.1)
    (hdet : detOp (andShape ow A B eL eR) = some g)
    (hA : A ≠ []) (hAd : allDigits A) (hB : B ≠ []) (hBd : allDigits B)
    (heL : goodRuns eL) (heR : goodRuns eR) :
    parseL (andShape ow A B eL eR) = A.map sing ++ g :: (B.map sing ++ ["="]) := by
  have hglyph : g ∈ binGlyphs := detOp_glyph hdet
  have hlower : lowerL (andShape ow A B eL eR) = andShape ow A B eL eR := by
    apply lowerL_id
    intro c hc
    rcases andShape_chars hAd hBd heL heR c hc with h | h | h | h
    · exact (howc c h).1
    · rw [h]; decide
    · exact lowerC_digit c h
    · simp only [List.mem_cons, List.not_mem_nil, or_false] at h
      rcases h with rfl | rfl | rfl <;> decide
  have hhead : headNotP isSpaceC (andShape ow A B eL eR) = true := by
    cases ow with
    | nil => exact absurd rfl how0
    | cons c t =>
      have hc := (howc c (List.mem_cons_self _ _)).2.1
      show headNotP isSpaceC (c :: (t ++ _)) = true
      simp [headNotP, hc]
  have hlastd : ∃ c, (andShape ow A B eL eR).getLast? = some c ∧ c ∈ digitChars := by
    obtain ⟨c, hc1, hc2⟩ := andTail_getLast hB hBd heR
    refine ⟨c, ?_, hc2⟩
    rw [andShape_decomp, List.getLast?_append_of_ne_nil (andLeft ow A eL) (by simp)]
    show ((['a', 'n', 'd', ' '] : List Char) ++ (B ++ SJ eR)).getLast? = some c
    rw [List.getLast?_append_of_ne_nil (['a', 'n', 'd', ' '] : List Char)
      (List.append_ne_nil_of_left_ne_nil hB (SJ eR))]
    exact hc1
  have hstrip : stripL (andShape ow A B eL eR) = andShape ow A B eL eR := by
    obtain ⟨c, hc1, hc2⟩ := hlastd
    exact stripL_id hhead
      (headNotP_reverse hc1 (isSpaceC_digit c hc2))
  have happly : applyNumberWords (andShape ow A B eL eR) = andShape ow A B eL eR := by
    apply applyNumberWords_eq_self
    rw [wordRuns_andShape how0 (fun c hc => (howc c hc).2.2.1) hA hAd hB hBd heL heR]
    intro r hr wd hwd
    rcases List.mem_cons.mp hr with rfl | hr
    · exact hownum wd hwd
    rcases List.mem_cons.mp hr with rfl | hr
    · exact digitRun_ne_numWord hA hAd wd hwd
    rcases List.mem_append.mp hr with hr | hr
    · exact digitRun_ne_numWord (heL r hr).1 (heL r hr).2 wd hwd
    rcases List.mem_cons.mp hr with rfl | hr
    · revert hwd; revert wd; decide
    rcases List.mem_cons.mp hr with rfl | hr
    · exact digitRun_ne_numWord hB hBd wd hwd
    · exact digitRun_ne_numWord (heR r hr).1 (heR r hr).2 wd hwd
  have hthen : containsSub "then".toList (andShape ow A B eL eR) = false := by
    apply containsSub_eq_false_of_not_mem (show 'h' ∈ "then".toList by decide)
    intro hc
    rcases andShape_chars hAd hBd heL heR 'h' hc with h | h | h | h
    exacts [howh h, absurd h (by decide), absurd h (by decide), absurd h (by decide)]
  have hand : containsSub "and".toList (andShape ow A B eL eR) = true := by
    rw [andShape_decomp]
    have hp : containsSub "and".toList
        ('a' :: 'n' :: 'd' :: ' ' :: (B ++ SJ eR)) = true :=
      containsSub_of_prefix (hasPrefixL_append "and".toList _)
    exact containsSub_append_right hp _
  have hsplit : splitAnd (andShape ow A B eL eR) =
      [andLeft ow A eL, ' ' :: (B ++ SJ eR)] :=
    splitAnd_andShape hown hAd hBd heL heR
  have hdrL : digitRuns (andLeft ow A eL) = A :: eL :=
    digitRuns_andLeft (fun c hc => (howc c hc).2.2.2) hA hAd heL
  have hdrR := digitRuns_andRight hB hBd heR
  have hpsop : psop (andShape ow A B eL eR) =
      A.map sing ++ g :: (B.map sing ++ ["="]) := by
    simp only [psop, hdet, hand, if_true, hsplit]
    simp only [List.getD_cons_zero, List.getD_cons_succ, List.length_cons,
      List.length_singleton, hdrL, hdrR, List.headD_cons, List.isEmpty_cons,
      Bool.not_false, Bool.and_self, if_true]
    simp
  rw [show parseL (andShape ow A B eL eR) =
      (if containsSub "then".toList
            (applyNumberWords (stripL (lowerL (andShape ow A B eL eR)))) = true then
        forceEq (psop (stripL ((splitThen (applyNumberWords (stripL (lowerL
          (andShape ow A B eL eR))))).getD 0 []))) ++
          secondClause (stripL (joinThen ((splitThen (applyNumberWords (stripL (lowerL
            (andShape ow A B eL eR))))).drop 1)))
      else forceEq (psop (applyNumberWords (stripL (lowerL (andShape ow A B eL eR))))))
      from rfl,
    hlower, hstrip, happly, hthen]
  simp only [Bool.false_eq_true, if_false]
  rw [hpsop]
  apply forceEq_of_shape
  refine Or.inr ⟨?_, ?_⟩
  · show EndsEq _
    rw [show A.map sing ++ g :: (B.map sing ++ ["="]) =
        (A.map sing ++ g :: B.map sing) ++ ["="] from by simp]
    exact endsEq_append _
  · intro t ht
    simp only [List.mem_append, List.mem_cons, List.mem_map, List.not_mem_nil,
      or_false] at ht
    rcases ht with ⟨c, hc, rfl⟩ | rfl | ⟨c, hc, rfl⟩ | rfl
    · exact sing_digit_not_unary c (hAd c hc)
    · exact bin_not_unary t hglyph
    · exact sing_digit_not_unary c (hBd c hc)
    · decide

/-- The instruction always contains its own leading operator word. -/
theorem andShape_contains_ow (ow A B : List Char) (eL eR : List (List Char)) :
    containsSub ow (andShape ow A B eL eR) = true := by
  rw [show andShape ow A B eL eR = ow ++ (' ' :: (A ++ (SJ eL ++
    (' ' :: 'a' :: 'n' :: 'd' :: ' ' :: (B ++ SJ eR))))) from rfl]
  exact containsSub_of_prefix (hasPrefixL_append ow _)

theorem allDigits_of_all {l : List Char} (h : l.all isDigitC = true) : allDigits l :=
  fun c hc => isDigitC_mem (List.all_eq_true.mp h c hc)

theorem goodRuns_of_all {es : List (List Char)}
    (h : es.all (fun e => !e.isEmpty && e.all isDigitC) = true) : goodRuns es := by
  intro e he
  have h2 := List.all_eq_true.mp h e he
  simp only [Bool.and_eq_true, Bool.not_eq_true'] at h2
  refine ⟨fun hh => ?_, allDigits_of_all h2.2⟩
  rw [hh] at h2
  exact absurd h2.1 (by decide)

/-- The four operator words of the `and`-conjunction grammar with the glyph
each is parsed to. -/
def opWords : List (List Char × String) :=
  [("add".toList, "+"), ("subtract".toList, "-"),
   ("multiply".toList, "×"), ("divide".toList, "÷")]

/-! ## Claim theorems -/

/-- Interface map whose only `+`-labelled node is the memory-add button. -/
def c1CexNodes : Fdom :=
  [("node1", { g_icon_name := "M+ Button".toList,
               g_brief := "Adds the displayed value to memory".toList,
               bbox := [10, 10, 20, 20] })]

/-- Claim C1 counterexample: on a map whose only `+`-labelled node is
`M+ Button`, the generic substring fallback pass of `_find_node_by_name`
resolves the `'+'` token to that memory-add node, so the resolution is not
safe across all three passes. -/
theorem C1_counterexample :
    findNodeByName "+".toList c1CexNodes = some "node1" ∧
    (lookupNode "node1" c1CexNodes).map (fun nd => plusExcluded nd.g_icon_name) =
      some true := by
  constructor
  · decide
  · decide

/-- Claim C1 (amended): in the first, alias-table pass the `'+'` token never
resolves to a node whose icon label names the memory-add or sign-toggle
button; the exclusion does not extend to the generic substring fallback
pass, which can return such a node when no exact match exists. -/
theorem C1_plus_alias_pass_safe (nodes : Fdom) (nid : String)
    (h : plusPass nodes = some nid) :
    ∃ nd, (nid, nd) ∈ nodes ∧ plusExcluded nd.g_icon_name = false :=
  plusPass_safe nodes nid h

/-- Interface map with a memory-add node listed before a genuine plus node. -/
def c1GoodNodes : Fdom :=
  [("m", { g_icon_name := "M+ Button".toList, g_brief := "memory add".toList,
           bbox := [0, 0, 1, 1] }),
   ("p", { g_icon_name := "+ Button".toList, g_brief := "Addition operator".toList,
           bbox := [0, 0, 1, 1] })]

/-- Witness for claim C1's amended theorem at a concrete map. -/
theorem C1_witness :
    ∃ nd, ("p", nd) ∈ c1GoodNodes ∧ plusExcluded nd.g_icon_name = false :=
  C1_plus_alias_pass_safe c1GoodNodes "p" (by decide)

/-- Claim C2: every `parse` output satisfies the committed-before-unary
invariant — a binary operator glyph followed later by a unary token always
has an `=` strictly between them — and the flagship instruction parses to
`["2", "+", "3", "=", "square"]` with the `=` inserted although the text
never says `equals`. -/
theorem C2_equals_committed_before_unary :
    (∀ s : List Char, okSeq (parseL s)) ∧
    parseInstr "Add 2 and 3 and then find the square of the result" =
      ["2", "+", "3", "=", "square"] :=
  ⟨parseL_okSeq, by decide⟩

/-- Witness for claim C2 at the flagship instruction: between the `+` at
index 1 and the `square` at index 4 an `=` occurs. -/
theorem C2_witness :
    ∃ k, 1 < k ∧ k < 4 ∧
      (parseL "Add 2 and 3 and then find the square of the result".toList).getD k "" =
        "=" :=
  C2_equals_committed_before_unary.1
    "Add 2 and 3 and then find the square of the result".toList 1 4
    (by decide) (by decide) (by decide) (by decide)

/-- Claim C3: operator determination is the fixed-priority first-match
keyword scan (add/plus before subtract/minus before multiply/times/by before
divide); in particular an instruction containing both `divide` and `by` never
yields `÷`, and `divide 10 by 2` parses with the `×` glyph. -/
theorem C3_operator_priority :
    (∀ s : List Char, detOp s = detOpSpec s) ∧
    (∀ s : List Char, containsSub "divide".toList s = true →
      containsSub "by".toList s = true → detOp s ≠ some "÷") ∧
    parseInstr "divide 10 by 2" = ["1", "0", "×", "2", "="] :=
  ⟨detOp_eq_detOpSpec, fun _ _ hby => detOp_not_div_of_by hby, by decide⟩

/-- Witness for claim C3 at `divide 10 by 2`. -/
theorem C3_witness : detOp "divide 10 by 2".toList ≠ some "÷" :=
  C3_operator_priority.2.1 "divide 10 by 2".toList (by decide) (by decide)

/-- Claim C4 counterexample: with a backend whose origin query always fails
while window enumeration always offers a `calculator` window,
`_update_window_position` performs three `locate()` invocations within fuel 2
and still has not terminated — it does not stop after a single re-resolution
attempt. -/
theorem C4_counterexample :
    (updateWindowPosition advGui 2 advSt).1 = false ∧
    countLocate (updateWindowPosition advGui 2 advSt).2.tr = 3 := by
  constructor
  · decide
  · decide

/-- Claim C4 (amended): when the origin query fails, the method re-locates
once; if that re-location fails it terminates immediately with the handle
cleared — a single re-resolution attempt.  But when re-location keeps
succeeding while the origin query keeps failing, it recurses and performs one
`locate()` per recursion level without bound, so termination is not
guaranteed for every backend response sequence. -/
theorem C4_update_position_retry_behaviour :
    (∀ (S : Type) (g : Gui S) (fuel : Nat) (st : St S) (wid : Nat),
      st.c.window_id = some wid →
      g.getWindowInfo (doRefresh g st).s (some wid) = none →
      (doLocate g (doRefresh g st)).1 = none →
      updateWindowPosition g fuel st =
        (true, setWid (doLocate g (doRefresh g st)).2 none) ∧
      countLocate (setWid (doLocate g (doRefresh g st)).2 none).tr =
        countLocate st.tr + 1 ∧
      (setWid (doLocate g (doRefresh g st)).2 none).c.window_id = none) ∧
    (∀ (n : Nat) (st : St Unit), st.c.window_id = some 1 →
      (updateWindowPosition advGui n st).1 = false ∧
      countLocate (updateWindowPosition advGui n st).2.tr =
        countLocate st.tr + (n + 1)) :=
  ⟨fun _ g fuel st wid h1 h2 h3 => updatePos_locateFail g fuel st wid h1 h2 h3,
   updatePos_adversarial⟩

/-- Backend with no windows at all, for the single-retry witness. -/
def c4NoGui : Gui Unit where
  refresh := id
  getWindows := fun _ => []
  getWindowInfo := fun _ _ => none
  focusW := fun s _ => s
  clickAt := fun s _ _ => (true, s)
  launchApp := fun s => (none, s)

/-- Initial state for the single-retry witness. -/
def c4NoSt : St Unit :=
  { c := { window_id := some 5, window_pos := none }, s := (), tr := [] }

/-- Witness for claim C4's amended theorem: with a window-less backend the
method terminates after exactly one re-location, clearing the handle. -/
theorem C4_witness :
    updateWindowPosition c4NoGui 7 c4NoSt =
      (true, setWid (doLocate c4NoGui (doRefresh c4NoGui c4NoSt)).2 none) ∧
    countLocate (setWid (doLocate c4NoGui (doRefresh c4NoGui c4NoSt)).2 none).tr =
      countLocate c4NoSt.tr + 1 ∧
    (setWid (doLocate c4NoGui (doRefresh c4NoGui c4NoSt)).2 none).c.window_id = none :=
  C4_update_position_retry_behaviour.1 Unit c4NoGui 7 c4NoSt 5 rfl rfl rfl

/-- Claim C5: for every instruction of the form `<op-word> <A> and <B>` —
with op-word one of add/subtract/multiply/divide, `A` and `B` the first digit
runs left and right of the word `and`, and arbitrary further digit runs on
either side, which are ignored — `parse` emits exactly the digits of `A` one
token per character, the operator glyph, the digits of `B` one token per
character, and `=`. -/
theorem C5_and_conjunction :
    ∀ ow g, (ow, g) ∈ opWords →
    ∀ (A B : List Char) (eL eR : List (List Char)),
      A ≠ [] → allDigits A → B ≠ [] → allDigits B → goodRuns eL → goodRuns eR →
      parseL (andShape ow A B eL eR) = A.map sing ++ g :: (B.map sing ++ ["="]) := by
  intro ow g howg A B eL eR hA hAd hB hBd heL heR
  simp only [opWords, List.mem_cons, List.not_mem_nil, or_false] at howg
  have hpre := andShape_contains_ow ow A B eL eR
  rcases howg with h | h | h | h
  · obtain ⟨rfl, rfl⟩ := Prod.mk.inj h
    have hdet : detOp (andShape "add".toList A B eL eR) = some "+" := by
      simp only [detOp]
      rw [hpre]
      simp
    exact parseL_andShape (by decide) (by decide) (by decide) (by decide) (by decide)
      hdet hA hAd hB hBd heL heR
  · obtain ⟨rfl, rfl⟩ := Prod.mk.inj h
    have hnadd := andShape_not_add hAd hBd heL heR
      (show ('a', 'd') ∉ pairsL "subtract".toList by decide)
    have hnplus := andShape_not_contains hAd hBd heL heR
      (show 'p' ∈ "plus".toList by decide) (show 'p' ∉ "subtract".toList by decide)
      (by decide) (by decide) (by decide)
    have hdet : detOp (andShape "subtract".toList A B eL eR) = some "-" := by
      simp only [detOp]
      rw [hnadd, hnplus, hpre]
      simp
    exact parseL_andShape (by decide) (by decide) (by decide) (by decide) (by decide)
      hdet hA hAd hB hBd heL heR
  · obtain ⟨rfl, rfl⟩ := Prod.mk.inj h
    have hnadd := andShape_not_add hAd hBd heL heR
      (show ('a', 'd') ∉ pairsL "multiply".toList by decide)
    have hnplus := andShape_not_contains hAd hBd heL heR
      (show 's' ∈ "plus".toList by decide) (show 's' ∉ "multiply".toList by decide)
      (by decide) (by decide) (by decide)
    have hnsub := andShape_not_contains hAd hBd heL heR
      (show 's' ∈ "subtract".toList by decide) (show 's' ∉ "multiply".toList by decide)
      (by decide) (by decide) (by decide)
    have hnmin := andShape_not_contains hAd hBd heL heR
      (show 's' ∈ "minus".toList by decide) (show 's' ∉ "multiply".toList by decide)
      (by decide) (by decide) (by decide)
    have hdet : detOp (andShape "multiply".toList A B eL eR) = some "×" := by
      simp only [detOp]
      rw [hnadd, hnplus, hnsub, hnmin, hpre]
      simp
    exact parseL_andShape (by decide) (by decide) (by decide) (by decide) (by decide)
      hdet hA hAd hB hBd heL heR
  · obtain ⟨rfl, rfl⟩ := Prod.mk.inj h
    have hnadd := andShape_not_add hAd hBd heL heR
      (show ('a', 'd') ∉ pairsL "divide".toList by decide)
    have hnplus := andShape_not_contains hAd hBd heL heR
      (show 'p' ∈ "plus".toList by decide) (show 'p' ∉ "divide".toList by decide)
      (by decide) (by decide) (by decide)
    have hnsub := andShape_not_contains hAd hBd heL heR
      (show 's' ∈ "subtract".toList by decide) (show 's' ∉ "divide".toList by decide)
      (by decide) (by decide) (by decide)
    have hnmin := andShape_not_contains hAd hBd heL heR
      (show 's' ∈ "minus".toList by decide) (show 's' ∉ "divide".toList by decide)
      (by decide) (by decide) (by decide)
    have hnmul := andShape_not_contains hAd hBd heL heR
      (show 'm' ∈ "multiply".toList by decide) (show 'm' ∉ "divide".toList by decide)
      (by decide) (by decide) (by decide)
    have hntim := andShape_not_contains hAd hBd heL heR
      (show 'm' ∈ "times".toList by decide) (show 'm' ∉ "divide".toList by decide)
      (by decide) (by decide) (by decide)
    have hnby := andShape_not_contains hAd hBd heL heR
      (show 'b' ∈ "by".toList by decide) (show 'b' ∉ "divide".toList by decide)
      (by decide) (by decide) (by decide)
    have hdet : detOp (andShape "divide".toList A B eL eR) = some "÷" := by
      simp only [detOp]
      rw [hnadd, hnplus, hnsub, hnmin, hnmul, hntim, hnby, hpre]
      simp
    exact parseL_andShape (by decide) (by decide) (by decide) (by decide) (by decide)
      hdet hA hAd hB hBd heL heR

/-- Witness for claim C5 at the instruction `add 12 and 3 8`: the extra
number `8` after `B` is ignored. -/
theorem C5_witness : parseInstr "add 12 and 3 8" = ["1", "2", "+", "3", "="] := by
  have h := C5_and_conjunction "add".toList "+" (by decide) "12".toList "3".toList
    [] [['8']] (by decide) (allDigits_of_all (by decide)) (by decide)
    (allDigits_of_all (by decide)) (goodRuns_of_all (by decide))
    (goodRuns_of_all (by decide))
  rw [show parseInstr "add 12 and 3 8" =
    parseL (andShape "add".toList "12".toList "3".toList [] [['8']]) from rfl, h]
  decide

/-- Claim C6: `_find_calculator_window`'s selection loop equals a first-match
search for the specification predicate — title not containing any excluded
substring and equal to `calculator` or prefixed by it — so an excluded window
is never returned even when its title contains the target name, and among
qualifying windows the first in enumeration order is returned. -/
theorem C6_window_selection :
    ∀ ws : List (Nat × List Char),
      selectCalcWindow ws =
        (ws.find? fun p => calcTitleOk (lowerL p.2)).map (fun p => p.1) :=
  selectCalcWindow_eq_find

/-- Claim C7: a multi-digit operand literal is decomposed by `parse` into one
token per digit in left-to-right (most-significant-first) order: for any
nonempty digit strings `A` and `B`, `multiply <A> by <B>` parses to the digits
of `A` in order, then `×`, then the digits of `B` in order, then `=`. -/
theorem C7_multi_digit_decomposition :
    ∀ A B : List Char, A ≠ [] → allDigits A → B ≠ [] → allDigits B →
      parseL (mulShape A B) = A.map sing ++ "×" :: (B.map sing ++ ["="]) := by
  intro A B hA hAd hB hBd
  have hchars : ∀ c ∈ mulShape A B,
      c ∈ "multiply".toList ∨ c = ' ' ∨ c ∈ digitChars ∨ c ∈ (['b', 'y'] : List Char) := by
    intro c hc
    simp only [mulShape, List.mem_append, List.mem_cons, List.not_mem_nil,
      or_false] at hc
    rcases hc with h | h | h | h | h | h | h | h
    · exact Or.inl h
    · exact Or.inr (Or.inl h)
    · exact Or.inr (Or.inr (Or.inl (hAd c h)))
    · exact Or.inr (Or.inl h)
    · exact Or.inr (Or.inr (Or.inr (by rw [h]; decide)))
    · exact Or.inr (Or.inr (Or.inr (by rw [h]; decide)))
    · exact Or.inr (Or.inl h)
    · exact Or.inr (Or.inr (Or.inl (hBd c h)))
  have hnotmem : ∀ c : Char, c ∉ "multiply".toList → c ≠ ' ' → c ∉ digitChars →
      c ∉ (['b', 'y'] : List Char) → c ∉ mulShape A B := by
    intro c h1 h2 h3 h4 hc
    rcases hchars c hc with h | h | h | h
    exacts [h1 h, h2 h, h3 h, h4 h]
  have hlower : lowerL (mulShape A B) = mulShape A B := by
    apply lowerL_id
    intro c hc
    rcases hchars c hc with h | h | h | h
    · exact (show ∀ x ∈ "multiply".toList, lowerC x = x by decide) c h
    · rw [h]; decide
    · exact lowerC_digit c h
    · exact (show ∀ x ∈ (['b', 'y'] : List Char), lowerC x = x by decide) c h
  have hhead : headNotP isSpaceC (mulShape A B) = true := by
    rw [show mulShape A B =
      'm' :: ("ultiply".toList ++ ' ' :: (A ++ (' ' :: 'b' :: 'y' :: ' ' :: B)))
      from rfl]
    simp [headNotP]
    decide
  have hlast : ∃ c, (mulShape A B).getLast? = some c ∧ c ∈ digitChars := by
    obtain ⟨c, h1, h2⟩ := getLast?_exists_mem hB
    refine ⟨c, ?_, hBd c h2⟩
    rw [show mulShape A B =
      ("multiply".toList ++ ' ' :: (A ++ [' ', 'b', 'y', ' '])) ++ B
      from by simp [mulShape], List.getLast?_append_of_ne_nil _ hB]
    exact h1
  have hstrip : stripL (mulShape A B) = mulShape A B := by
    obtain ⟨c, h1, h2⟩ := hlast
    exact stripL_id hhead (headNotP_reverse h1 (isSpaceC_digit c h2))
  have hspw : isWordChar ' ' = false := by decide
  have hskipw : ∀ c ∈ ([' '] : List Char), isWordChar c = false := by decide
  have hwr : wordRuns (mulShape A B) = ["multiply".toList, A, ['b', 'y'], B] := by
    have hh1 : headNotP isWordChar
        ([' '] ++ (A ++ ([' '] ++ (['b', 'y'] ++ ([' '] ++ (B ++ [])))))) = true :=
      headNotP_space isWordChar hspw _
    have hh2 : headNotP isWordChar
        ([' '] ++ (['b', 'y'] ++ ([' '] ++ (B ++ [])))) = true :=
      headNotP_space isWordChar hspw _
    have hh3 : headNotP isWordChar ([' '] ++ (B ++ [])) = true :=
      headNotP_space isWordChar hspw _
    have h1 : mulShape A B = "multiply".toList ++
        ([' '] ++ (A ++ ([' '] ++ (['b', 'y'] ++ ([' '] ++ (B ++ [])))))) := by
      simp [mulShape]
    rw [show wordRuns (mulShape A B) = runsBy isWordChar (mulShape A B) from rfl, h1,
      runsBy_chunk isWordChar (by decide) (by decide : ∀ c ∈ "multiply".toList,
        isWordChar c = true) hh1,
      runsBy_skip isWordChar [' '] hskipw,
      runsBy_chunk isWordChar hA (fun c hc => isWordChar_digit c (hAd c hc)) hh2,
      runsBy_skip isWordChar [' '] hskipw,
      runsBy_chunk isWordChar (by decide) (by decide : ∀ c ∈ (['b', 'y'] : List Char),
        isWordChar c = true) hh3,
      runsBy_skip isWordChar [' '] hskipw,
      runsBy_chunk isWordChar hB (fun c hc => isWordChar_digit c (hBd c hc))
        (rfl : headNotP isWordChar [] = true)]
    simp [runsBy, runsByGo]
  have happly : applyNumberWords (mulShape A B) = mulShape A B := by
    apply applyNumberWords_eq_self
    rw [hwr]
    intro r hr wd hwd
    rcases List.mem_cons.mp hr with rfl | hr
    · revert hwd; revert wd; decide
    rcases List.mem_cons.mp hr with rfl | hr
    · exact digitRun_ne_numWord hA hAd wd hwd
    rcases List.mem_cons.mp hr with rfl | hr
    · revert hwd; revert wd; decide
    rcases List.mem_cons.mp hr with rfl | hr
    · exact digitRun_ne_numWord hB hBd wd hwd
    · exact absurd hr (List.not_mem_nil r)
  have hthen : containsSub "then".toList (mulShape A B) = false :=
    containsSub_eq_false_of_not_mem (show 'h' ∈ "then".toList by decide)
      (hnotmem 'h' (by decide) (by decide) (by decide) (by decide))
  have hnadd : containsSub "add".toList (mulShape A B) = false :=
    containsSub_eq_false_of_not_mem (show 'a' ∈ "add".toList by decide)
      (hnotmem 'a' (by decide) (by decide) (by decide) (by decide))
  have hnplus : containsSub "plus".toList (mulShape A B) = false :=
    containsSub_eq_false_of_not_mem (show 's' ∈ "plus".toList by decide)
      (hnotmem 's' (by decide) (by decide) (by decide) (by decide))
  have hnsub : containsSub "subtract".toList (mulShape A B) = false :=
    containsSub_eq_false_of_not_mem (show 's' ∈ "subtract".toList by decide)
      (hnotmem 's' (by decide) (by decide) (by decide) (by decide))
  have hnmin : containsSub "minus".toList (mulShape A B) = false :=
    containsSub_eq_false_of_not_mem (show 's' ∈ "minus".toList by decide)
      (hnotmem 's' (by decide) (by decide) (by decide) (by decide))
  have hmulpre : containsSub "multiply".toList (mulShape A B) = true := by
    rw [show mulShape A B = "multiply".toList ++
      (' ' :: (A ++ (' ' :: 'b' :: 'y' :: ' ' :: B))) from rfl]
    exact containsSub_of_prefix (hasPrefixL_append _ _)
  have hdet : detOp (mulShape A B) = some "×" := by
    simp only [detOp]
    rw [hnadd, hnplus, hnsub, hnmin, hmulpre]
    simp
  have hand : containsSub "and".toList (mulShape A B) = false :=
    containsSub_eq_false_of_not_mem (show 'a' ∈ "and".toList by decide)
      (hnotmem 'a' (by decide) (by decide) (by decide) (by decide))
  have hspd : isDigitC ' ' = false := by decide
  have hdr : digitRuns (mulShape A B) = [A, B] := by
    have hh2 : headNotP isDigitC ([' ', 'b', 'y', ' '] ++ (B ++ [])) = true :=
      headNotP_space isDigitC hspd _
    have h1 : mulShape A B = "multiply".toList ++
        ([' '] ++ (A ++ ([' ', 'b', 'y', ' '] ++ (B ++ [])))) := by
      simp [mulShape]
    rw [show digitRuns (mulShape A B) = runsBy isDigitC (mulShape A B) from rfl, h1,
      runsBy_skip isDigitC "multiply".toList
        (by decide : ∀ c ∈ "multiply".toList, isDigitC c = false),
      runsBy_skip isDigitC [' '] (by decide),
      runsBy_chunk isDigitC hA (fun c hc => mem_digitChars_isDigitC (hAd c hc)) hh2,
      runsBy_skip isDigitC [' ', 'b', 'y', ' '] (by decide),
      runsBy_chunk isDigitC hB (fun c hc => mem_digitChars_isDigitC (hBd c hc))
        (rfl : headNotP isDigitC [] = true)]
    simp [runsBy, runsByGo]
  have hpsop : psop (mulShape A B) = A.map sing ++ "×" :: (B.map sing ++ ["="]) := by
    simp only [psop, hdet]
    rw [hand]
    simp only [Bool.false_eq_true, if_false, psopTail, hdr]
    simp [emitNums]
  rw [show parseL (mulShape A B) =
      (if containsSub "then".toList
            (applyNumberWords (stripL (lowerL (mulShape A B)))) = true then
        forceEq (psop (stripL ((splitThen (applyNumberWords (stripL (lowerL
          (mulShape A B))))).getD 0 []))) ++
          secondClause (stripL (joinThen ((splitThen (applyNumberWords (stripL (lowerL
            (mulShape A B))))).drop 1)))
      else forceEq (psop (applyNumberWords (stripL (lowerL (mulShape A B))))))
      from rfl,
    hlower, hstrip, happly, hthen]
  simp only [Bool.false_eq_true, if_false]
  rw [hpsop]
  apply forceEq_of_shape
  refine Or.inr ⟨?_, ?_⟩
  · show EndsEq _
    rw [show A.map sing ++ "×" :: (B.map sing ++ ["="]) =
        (A.map sing ++ "×" :: B.map sing) ++ ["="] from by simp]
    exact endsEq_append _
  · intro t ht
    simp only [List.mem_append, List.mem_cons, List.mem_map, List.not_mem_nil,
      or_false] at ht
    rcases ht with ⟨c, hc, rfl⟩ | rfl | ⟨c, hc, rfl⟩ | rfl
    · exact sing_digit_not_unary c (hAd c hc)
    · decide
    · exact sing_digit_not_unary c (hBd c hc)
    · decide

/-- Witness for claim C7 at the spec's example `multiply 12 by 7`. -/
theorem C7_witness : parseInstr "multiply 12 by 7" = ["1", "2", "×", "7", "="] := by
  have h := C7_multi_digit_decomposition "12".toList "7".toList (by decide)
    (allDigits_of_all (by decide)) (by decide) (allDigits_of_all (by decide))
  rw [show parseInstr "multiply 12 by 7" =
    parseL (mulShape "12".toList "7".toList) from rfl, h]
  decide

/-- Claim C8: a resolved node whose bounding box does not have exactly four
entries makes `click_button` return the invalid-bbox failure for that token
only, and the `execute_calculation` loop attempts every token and appends one
outcome per token, with earlier outcomes unaffected by later tokens. -/
theorem C8_malformed_bbox_recoverable :
    (∀ (S : Type) (g : Gui S) (nodes : Fdom) (fuel : Nat) (btn : String)
      (st st2 : St S) (w : Nat) (nid : String) (nd : NodeR) (px py : Int),
      st.c.window_id = some w →
      findNodeByName btn.toList nodes = some nid →
      lookupNode nid nodes = some nd →
      updateWindowPosition g fuel st = (true, st2) →
      st2.c.window_pos = some (px, py) →
      nd.bbox.length ≠ 4 →
      clickButton g nodes fuel btn st = some (CBRes.fail ErrKind.invalidBbox, st2)) ∧
    (∀ (S : Type) (g : Gui S) (nodes : Fdom) (fuel : Nat) (bs : List String)
      (st : St S) (out : List (String × CBRes)) (st' : St S),
      execButtons g nodes fuel bs st = some (out, st') → out.map Prod.fst = bs) ∧
    (∀ (S : Type) (g : Gui S) (nodes : Fdom) (fuel : Nat) (bs cs : List String)
      (st : St S) (out : List (String × CBRes)) (st' : St S),
      execButtons g nodes fuel (bs ++ cs) st = some (out, st') →
      ∃ o1 st1 o2, execButtons g nodes fuel bs st = some (o1, st1) ∧
        execButtons g nodes fuel cs st1 = some (o2, st') ∧ out = o1 ++ o2) := by
  refine ⟨?_, ?_, ?_⟩
  · intro S g nodes fuel btn st st2 w nid nd px py hw hfind hlook hupd hpos hbb
    unfold clickButton
    split
    · exact clickCore_invalidBbox g nodes fuel btn st st2 nid nd px py
        hfind hlook hupd hpos hbb
    · rename_i hnone
      rw [hw] at hnone
      exact Option.noConfusion hnone
  · intro S g nodes fuel bs st out st' h
    exact execButtons_map_fst g nodes fuel bs st out st' h
  · intro S g nodes fuel bs cs st out st' h
    exact execButtons_append g nodes fuel bs cs st out st' h

/-- Backend that answers every query, for the malformed-bbox witness. -/
def c8Gui : Gui Unit where
  refresh := id
  getWindows := fun _ => [(1, "calculator".toList)]
  getWindowInfo := fun _ w =>
    if w == some 1 then some { title := "Calculator".toList, x := 100, y := 50 } else none
  focusW := fun s _ => s
  clickAt := fun s _ _ => (true, s)
  launchApp := fun s => (none, s)

/-- Node record with a three-entry bounding box. -/
def c8Node : NodeR :=
  { g_icon_name := "= Button".toList, g_brief := "Equals".toList, bbox := [1, 2, 3] }

/-- Interface map whose equals node has a three-entry bounding box. -/
def c8Fdom : Fdom := [("N1", c8Node)]

/-- Initial state for the malformed-bbox witness. -/
def c8St : St Unit :=
  { c := { window_id := some 1, window_pos := none }, s := (), tr := [] }

/-- Witness for claim C8 at a concrete backend and malformed map. -/
theorem C8_witness :
    clickButton c8Gui c8Fdom 5 "=" c8St =
      some (CBRes.fail ErrKind.invalidBbox, (updateWindowPosition c8Gui 5 c8St).2) := by
  exact C8_malformed_bbox_recoverable.1 Unit c8Gui c8Fdom 5 "=" c8St
    (updateWindowPosition c8Gui 5 c8St).2 1 "N1" c8Node
    100 50 rfl (by decide) (by decide) rfl (by decide) (by decide)

/-- Claim C9: on every pre-click failure path of `click_button` — button not
resolved, node data missing, window position unavailable, or malformed
bounding box — the trace of the call contains no click effect, so the GUI
click primitive is never invoked for a token failed for one of these
reasons. -/
theorem C9_no_click_on_failure :
    ∀ (S : Type) (g : Gui S) (nodes : Fdom) (fuel : Nat) (btn : String)
      (st : St S) (r : CBRes × St S) (e : ErrKind),
      st.tr = [] →
      clickButton g nodes fuel btn st = some r →
      r.1 = CBRes.fail e →
      (e = ErrKind.btnNotFound ∨ e = ErrKind.nodeDataMissing ∨
        e = ErrKind.noWindowPos ∨ e = ErrKind.invalidBbox) →
      clickFree r.2.tr = true := by
  intro S g nodes fuel btn st r e htr h hr1 he
  have hfree : clickFree st.tr = true := by rw [htr]; rfl
  obtain ⟨r1, r2⟩ := r
  cases hr1
  unfold clickButton at h
  split at h
  · exact clickCore_fail_no_click g nodes fuel btn st r2 e hfree h he
  · cases hoc : openCalculator g fuel st with
    | none =>
      rw [hoc] at h
      exact Option.noConfusion h
    | some pr =>
      obtain ⟨ok, st1⟩ := pr
      rw [hoc] at h
      have hfree1 : clickFree st1.tr = true :=
        clickFree_openCalculator g fuel st hfree (ok, st1) hoc
      cases ok
      · cases Option.some.inj h
        rcases he with he | he | he | he <;> exact absurd he (by decide)
      · exact clickCore_fail_no_click g nodes fuel btn st1 r2 e hfree1 h he

/-- Witness for claim C9 at the malformed-bbox instance: the resulting trace
contains no click effect. -/
theorem C9_witness : clickFree (updateWindowPosition c8Gui 5 c8St).2.tr = true :=
  C9_no_click_on_failure Unit c8Gui c8Fdom 5 "=" c8St
    (CBRes.fail ErrKind.invalidBbox, (updateWindowPosition c8Gui 5 c8St).2)
    ErrKind.invalidBbox rfl rfl rfl
    (Or.inr (Or.inr (Or.inr rfl)))

/-- Claim C10: every token `parse` ever emits belongs to the fixed alphabet
of digit, operator, equals and unary tokens. -/
theorem C10_token_alphabet :
    ∀ (s : List Char), ∀ t ∈ parseL s, t ∈ tokenAlphabet :=
  parseL_alphabet

/-- Witness for claim C10 at `multiply 12 by 7` and its `×` token. -/
theorem C10_witness : ("×" : String) ∈ tokenAlphabet :=
  C10_token_alphabet "multiply 12 by 7".toList "×" (by decide)

end Calc
